import Mathlib

/-!
# Verification of the go-safe-browsing-api client library

A shallow embedding of the parts of the repository that the claims C1..C10
concern, together with theorems settling each claim.

Conventions:
* Go byte strings (`string`, `[]byte`, `HostHash`, `LookupHash`) are modelled
  as `List Nat` (one `Nat` per byte).
* Go maps used as sets are modelled as `Finset` of keys; Go maps whose
  insertion order is observable are modelled as association lists in first-
  insertion order (Go map iteration order is unspecified; the model fixes the
  insertion order as one admissible order).
* Fallible Go code returns `Except`/dedicated result inductives; a Go runtime
  panic (out-of-range index or slice, negative `make` capacity, nil pointer
  dereference) is a distinguished result constructor, never an error value.
-/

namespace SafeBrowsing

/-- A byte string (Go `string` / `[]byte` holding binary data). -/
abbrev Key := List Nat

/-- `CHUNK_TYPE_ADD = "a"` (chunk.go line 40), as bytes. -/
def aType : List Nat := [97]

/-- `CHUNK_TYPE_SUB = "s"` (chunk.go line 41), as bytes. -/
def sType : List Nat := [115]

/-- Association-list lookup used to model Go map reads
(`m[k]` where missing keys read as the zero value). -/
def alookup {α : Type} (m : List (Key × α)) (k : Key) : Option α :=
  (m.find? (fun e => e.1 = k)).map (·.2)

/-- Model of `map[ChunkType]map[ChunkNum]bool`: reading a missing chunk type
yields the empty set (a nil inner map has no members). -/
def lookupDel (d : List (Key × Finset Nat)) (t : Key) : Finset Nat :=
  (alookup d t).getD ∅

/-! ## Range codec (component §4.C)

The functions `parseChunkRange` and `buildChunkRanges` are called from
`safebrowsinglist.go` and `safebrowsing.go` and pinned by `range_test.go`,
but their defining source file is not under `src/`.  They are therefore
modelled from the spec here. -/

/-- Modelled from the spec: §4.C "Parse `\"1-3,5,7-9\"` into a set of
ChunkNumbers" — the source file defining `parseChunkRange` is missing from
`src/` (only `range_test.go` and its callers are present).  Each
comma-separated item is either a single number or `A-B` denoting the closed
interval; anything else is a parse error. -/
def parseChunkRange (s : List Char) : Except Unit (Finset Nat) := do
  let items := (s.splitOn ',')
  items.foldlM (fun (acc : Finset Nat) item => do
    match item.splitOn '-' with
    | [one] =>
      match parseNatChars one with
      | some n => pure (acc ∪ {n})
      | none => .error ()
    | [lo, hi] =>
      match parseNatChars lo, parseNatChars hi with
      | some a, some b => pure (acc ∪ Finset.Icc a b)
      | _, _ => .error ()
    | _ => .error ()) ∅
where
  /-- Decimal parse of a nonempty all-digit character list. -/
  parseNatChars (cs : List Char) : Option Nat :=
    if cs.isEmpty then none
    else if cs.all (·.isDigit) then
      some (cs.foldl (fun n c => n * 10 + (c.toNat - 48)) 0)
    else none

/-- One step of grouping a strictly increasing number list into maximal
contiguous runs: `(lo, hi)` is the run under construction. -/
def chopRuns (lo hi : Nat) : List Nat → List (Nat × Nat)
  | [] => [(lo, hi)]
  | b :: rest =>
    if b = hi + 1 then chopRuns lo b rest
    else (lo, hi) :: chopRuns b b rest

/-- Insertion into a weakly increasing number list. -/
def insNat (a : Nat) : List Nat → List Nat
  | [] => [a]
  | b :: l => if a ≤ b then a :: b :: l else b :: insNat a l

/-- Insertion sort for chunk-number lists. -/
def sortNat (l : List Nat) : List Nat := l.foldr insNat []

/-- Modelled from the spec: §4.C "Emit a set as a lexicographically sorted
list of maximal contiguous runs, singletons formatted as `N`, runs as `A-B`.
Empty set ↔ empty string." — the source file defining `buildChunkRanges` is
missing from `src/`.  The input models the key set of a `map[ChunkNum]bool`
(duplicate-free, arbitrary order); the model returns the run list and
`runsToString` below renders it. -/
def buildChunkRanges (l : List Nat) : List (Nat × Nat) :=
  match sortNat l with
  | [] => []
  | a :: rest => chopRuns a a rest

/-- Rendering of a run list as the wire string (`"1-3,5,7-9"`). -/
def runsToString (runs : List (Nat × Nat)) : String :=
  String.intercalate "," (runs.map fun r =>
    if r.1 = r.2 then toString r.1 else toString r.1 ++ "-" ++ toString r.2)

/-- `n` is mentioned by the emitted range expression. -/
def covered (n : Nat) (runs : List (Nat × Nat)) : Prop :=
  ∃ r ∈ runs, r.1 ≤ n ∧ n ≤ r.2

instance (n : Nat) (runs : List (Nat × Nat)) : Decidable (covered n runs) := by
  unfold covered; infer_instance

/-! ## The cgo HAT-trie wrapper (safebrowsing.go lines 504–626)

The wrapper passes Go strings to C through `C.CString`, so every key is
truncated at its first NUL byte (`strlen`).  `set` inserts the key (via
`hattrie_get`, which creates a slot) and stores value 1; `delete` uses
`hattrie_tryget` and merely stores value 0 in an existing slot — the key
stays in the trie; `get` reports whether the stored value is 1.  The
iterator (`hattrie_iter_begin(trie, true)`) walks every key stored in the
trie, in sorted order, regardless of its value.  The model stores the
entries in insertion order and sorts at iteration time. -/

/-- C-string view of a key: `C.CString` + `strlen` truncate at the first
NUL byte. -/
def cstr (k : Key) : Key := k.takeWhile (fun b => b ≠ 0)

/-- Boolean lexicographic order on byte strings (the order in which the
HAT-trie's sorted iterator yields keys). -/
def lexLeB : Key → Key → Bool
  | [], _ => true
  | _ :: _, [] => false
  | a :: as, b :: bs => if a < b then true else if b < a then false else lexLeB as bs

/-- Insert into a lexicographically sorted key list. -/
def insLex (a : Key) : List Key → List Key
  | [] => [a]
  | b :: l => if lexLeB a b then a :: b :: l else b :: insLex a l

/-- Sort a key list lexicographically (insertion sort). -/
def sortLex (l : List Key) : List Key := l.foldr insLex []

/-- Model of the C `hattrie_t` as wrapped by safebrowsing.go: stored keys
with their `value_t` values, in insertion order. -/
structure HatTrieC where
  entries : List (Key × Nat)
deriving DecidableEq

/-- `NewTrie` (safebrowsing.go line 572). -/
def NewTrieC : HatTrieC := ⟨[]⟩

/-- The C helper `get`: `hattrie_tryget`, 0 when absent, else the stored
value (safebrowsing.go lines 528–535). -/
def hatRawGet (t : HatTrieC) (k : Key) : Nat :=
  ((t.entries.find? (fun e => e.1 = cstr k)).map (·.2)).getD 0

/-- `HatTrie.Get`: true iff the C `get` returns 1 (lines 593–598). -/
def hatGet (t : HatTrieC) (k : Key) : Bool := hatRawGet t k = 1

/-- `HatTrie.Set`: `hattrie_get` creates the slot if missing, then stores 1
(lines 522–526 and 587–591). -/
def hatSet (t : HatTrieC) (k : Key) : HatTrieC :=
  match t.entries.find? (fun e => e.1 = cstr k) with
  | some _ => ⟨t.entries.map fun e => if e.1 = cstr k then (e.1, 1) else e⟩
  | none => ⟨t.entries ++ [(cstr k, 1)]⟩

/-- `HatTrie.Delete`: `hattrie_tryget`; when the key is present its value is
set to 0 — the key itself is NOT removed from the trie (lines 537–543 and
581–585). -/
def hatDelete (t : HatTrieC) (k : Key) : HatTrieC :=
  ⟨t.entries.map fun e => if e.1 = cstr k then (e.1, 0) else e⟩

/-- The keys yielded by `HatTrie.Iterator`/`Next` until exhaustion:
`hattrie_iter_begin(trie, true)` iterates every stored key in sorted order,
regardless of the stored value (lines 608–626). -/
def hatIterKeys (t : HatTrieC) : List Key := sortLex (t.entries.map (·.1))

/-! ## Chunk codec (chunk.go)

`ReadChunk` and `ReadFullHashChunk` are modelled byte for byte over
`List Nat` input streams.  Result inductives distinguish a successfully
parsed chunk, a returned Go error value (including `io.EOF`), and a Go
runtime panic (out-of-range index/slice or a negative `make` capacity). -/

/-- The `Chunk` struct (chunk.go lines 43–55).  `Hashes` and `AddChunkNums`
are Go maps; the model keeps entries in first-insertion order. -/
structure GChunk where
  chunkNum : Nat
  chunkType : List Nat
  hashLen : Int
  chunkLen : Int
  hashes : List (Key × List Key)
  addChunkNums : List (Key × List Nat)
deriving DecidableEq

/-- `buf.ReadString('\n')`: bytes up to and including the first newline;
`none` models a non-nil error (the stream ended without the delimiter). -/
def readStringNL : List Nat → Option (List Nat × List Nat)
  | [] => none
  | b :: rest =>
    if b = 10 then some ([10], rest)
    else match readStringNL rest with
      | some (s, r) => some (b :: s, r)
      | none => none

/-- ASCII whitespace for `strings.TrimSpace` (the non-ASCII space code
points cannot occur in our byte model). -/
def isSpaceByte (b : Nat) : Bool :=
  b = 32 || b = 9 || b = 10 || b = 13 || b = 11 || b = 12

/-- `strings.TrimSpace`. -/
def trimSpace (s : List Nat) : List Nat :=
  ((s.dropWhile isSpaceByte).reverse.dropWhile isSpaceByte).reverse

/-- Decimal value of a nonempty all-digit byte list, else `none`. -/
def digitsVal (ds : List Nat) : Option Nat :=
  if ds.isEmpty then none
  else if ds.all (fun b => 48 ≤ b && b ≤ 57) then
    some (ds.foldl (fun n b => n * 10 + (b - 48)) 0)
  else none

/-- `strconv.Atoi` (64-bit int): optional sign, digits, range check. -/
def atoiInt (s : List Nat) : Option Int :=
  match s with
  | 43 :: rest =>
    (digitsVal rest).bind fun n =>
      if n ≤ 2 ^ 63 - 1 then some (Int.ofNat n) else none
  | 45 :: rest =>
    (digitsVal rest).bind fun n =>
      if n ≤ 2 ^ 63 then some (-(Int.ofNat n)) else none
  | _ =>
    (digitsVal s).bind fun n =>
      if n ≤ 2 ^ 63 - 1 then some (Int.ofNat n) else none

/-- `strconv.ParseUint(s, 10, 32)`: digits only (no sign), 32-bit range. -/
def parseUint32 (s : List Nat) : Option Nat :=
  (digitsVal s).bind fun n => if n < 2 ^ 32 then some n else none

/-- `parseChunkHeader` (chunk.go lines 70–95): trim, split on `':'`,
require exactly 4 fields, parse number / hash length / chunk length. -/
def parseChunkHeader (header : List Nat) : Option GChunk :=
  match (trimSpace header).splitOn 58 with
  | [t, p1, p2, p3] =>
    (parseUint32 p1).bind fun num =>
      (atoiInt p2).bind fun hl =>
        (atoiInt p3).bind fun cl =>
          some { chunkNum := num, chunkType := t, hashLen := hl,
                 chunkLen := cl, hashes := [], addChunkNums := [] }
  | _ => none

inductive SliceOut
  | ok (bytes rest : List Nat)
  | short
  | panicked
deriving DecidableEq

/-- `readSlice` (chunk.go lines 97–107): `make([]byte, 0, numBytes)` panics
when `numBytes` is negative; otherwise the loop reads exactly `numBytes`
bytes or ends with the reader's error (`short`) when the stream is
exhausted first. -/
def readSlice (buf : List Nat) (numBytes : Int) : SliceOut :=
  if numBytes < 0 then .panicked
  else if (buf.length : Int) < numBytes then .short
  else .ok (buf.take numBytes.toNat) (buf.drop numBytes.toNat)

/-- In-progress `Hashes` / `AddChunkNums` maps of a chunk being parsed. -/
structure RecAcc where
  hashes : List (Key × List Key)
  addChunkNums : List (Key × List Nat)
deriving DecidableEq

/-- `m[k] = append(m[k], v)` on an insertion-ordered map model. -/
def upsertAppend {α : Type} (m : List (Key × List α)) (k : Key) (v : α) :
    List (Key × List α) :=
  match m with
  | [] => [(k, [v])]
  | e :: rest => if e.1 = k then (e.1, e.2 ++ [v]) :: rest
                 else e :: upsertAppend rest k v

/-- Lines 134–139: on first sight of a host key, create its entry list (and,
for a SUB chunk, its add-chunk-number list). -/
def ensureHost (ct : List Nat) (acc : RecAcc) (host : Key) : RecAcc :=
  if (alookup acc.hashes host).isSome then acc
  else { hashes := acc.hashes ++ [(host, [])],
         addChunkNums :=
           if ct = sType then acc.addChunkNums ++ [(host, [])]
           else acc.addChunkNums }

/-- `chunk.Hashes[hostKey] = append(chunk.Hashes[hostKey], h)`. -/
def appendHash (acc : RecAcc) (host : Key) (h : Key) : RecAcc :=
  { acc with hashes := upsertAppend acc.hashes host h }

/-- `chunk.AddChunkNums[hostKey] = append(..., n)`. -/
def appendACN (acc : RecAcc) (host : Key) (n : Nat) : RecAcc :=
  { acc with addChunkNums := upsertAppend acc.addChunkNums host n }

/-- `readChunkNumber` (chunk.go lines 186–196): 4 bytes, big endian. -/
def beNum (b1 b2 b3 b4 : Nat) : Nat :=
  ((b1 * 256 + b2) * 256 + b3) * 256 + b4

inductive EntOut
  | ok (acc : RecAcc) (rest : List Nat)
  | fail
  | panicked
deriving DecidableEq

/-- The `y < count` entry loop of `ReadChunk` (chunk.go lines 162–181).
A SUB entry first consumes a 4-byte big-endian origin add-chunk number
(guarded, line 164); then the entry bytes are sliced.  The slice
`chunkBytes[x : x+chunk.HashLen]` panics when `HashLen` is negative (the
line-175 guard `x+HashLen > len` does not fire then). -/
def parseEntries (ct : List Nat) (hl : Int) (host : Key) :
    Nat → RecAcc → List Nat → EntOut
  | 0, acc, rest => .ok acc rest
  | y + 1, acc, rest =>
    if ct = sType then
      match rest with
      | b1 :: b2 :: b3 :: b4 :: rest2 =>
        if (rest2.length : Int) < hl then .fail
        else if hl < 0 then .panicked
        else parseEntries ct hl host y
          (appendHash (appendACN acc host (beNum b1 b2 b3 b4)) host
            (rest2.take hl.toNat))
          (rest2.drop hl.toNat)
      | _ => .fail
    else
      if (rest.length : Int) < hl then .fail
      else if hl < 0 then .panicked
      else parseEntries ct hl host y
        (appendHash acc host (rest.take hl.toNat)) (rest.drop hl.toNat)

inductive RecOut
  | ok (acc : RecAcc)
  | fail
  | panicked
deriving DecidableEq

/-- The host-record loop of `ReadChunk` (chunk.go lines 128–182), expressed
on the remaining bytes (`x < chunk.ChunkLen` with `ChunkLen =
len(chunkBytes)` is exactly "bytes remain").  `fuel` bounds the number of
records; callers pass `length + 1` and every record consumes at least five
bytes, so the fuel-out branch is unreachable.  When exactly the 4 host
bytes remain, the line-140 guard `x > len(chunkBytes)` passes (it is never
true) and `chunkBytes[x]` on line 143 indexes out of range: a panic. -/
def parseRecords (ct : List Nat) (hl : Int) :
    Nat → RecAcc → List Nat → RecOut
  | _, acc, [] => .ok acc
  | 0, _, _ :: _ => .panicked
  | fuel + 1, acc, h1 :: h2 :: h3 :: h4 :: rest =>
    let host : Key := [h1, h2, h3, h4]
    let acc1 := ensureHost ct acc host
    match rest with
    | [] => .panicked
    | cnt :: rest2 =>
      if cnt = 0 then
        let acc2 := appendHash acc1 host host
        if ct = sType then
          match rest2 with
          | b1 :: b2 :: b3 :: b4 :: rest3 =>
            parseRecords ct hl fuel (appendACN acc2 host (beNum b1 b2 b3 b4)) rest3
          | _ => .fail
        else parseRecords ct hl fuel acc2 rest2
      else
        match parseEntries ct hl host cnt acc1 rest2 with
        | .ok acc2 rest3 => parseRecords ct hl fuel acc2 rest3
        | .fail => .fail
        | .panicked => .panicked
  | _ + 1, _, _ => .fail

inductive ReadOut
  | ok (c : GChunk) (rest : List Nat)
  | fail
  | panicked
deriving DecidableEq

/-- `ReadChunk` (chunk.go lines 113–184). -/
def ReadChunk (buf : List Nat) : ReadOut :=
  match readStringNL buf with
  | none => .fail
  | some (header, rest) =>
    match parseChunkHeader header.dropLast with
    | none => .fail
    | some c =>
      match readSlice rest c.chunkLen with
      | .panicked => .panicked
      | .short => .fail
      | .ok chunkBytes rest2 =>
        match parseRecords c.chunkType c.hashLen (chunkBytes.length + 1)
            ⟨[], []⟩ chunkBytes with
        | .ok acc =>
          .ok { c with hashes := acc.hashes, addChunkNums := acc.addChunkNums }
            rest2
        | .fail => .fail
        | .panicked => .panicked

/-- `ReadString('\n')` as used by `ReadFullHashChunk`, which ignores the
error: up to and including the first newline, or all remaining bytes. -/
def takeThroughNL : List Nat → List Nat
  | [] => []
  | b :: rest => if b = 10 then [10] else b :: takeThroughNL rest

/-- Go `chunkLen / 32` (truncated integer division). -/
def goDiv32 (a : Int) : Int :=
  if a < 0 then -(((-a).toNat / 32 : Nat) : Int) else ((a.toNat / 32 : Nat) : Int)

/-- The `x < chunkLen/32` hash loop of `ReadFullHashChunk` (lines 233–240),
on the remaining bytes; `none` is the "Unexpected end of chunk" error. -/
def fhTake (bytes : List Nat) : Nat → Option (List Key)
  | 0 => some []
  | n + 1 =>
    if 32 ≤ bytes.length then
      (fhTake (bytes.drop 32) n).map (bytes.take 32 :: ·)
    else none

/-- `ReadFullHashChunk` (chunk.go lines 205–242).  The `ReadString` error is
ignored (only `len(header) == 0` is checked); `bits[1]` and `bits[2]` are
indexed without a length check, and `make([]LookupHash, 0, chunkLen/32)`
has an unchecked capacity: each is a panic on the matching inputs. -/
def ReadFullHashChunk (buf : List Nat) (host : Key) : ReadOut :=
  let header := takeThroughNL buf
  let rest := buf.drop header.length
  if header.length = 0 then .fail
  else
    match (trimSpace header).splitOn 58 with
    | [] => .panicked
    | [_] => .panicked
    | _ :: p1 :: more =>
      match parseUint32 p1 with
      | none => .fail
      | some num =>
        match more with
        | [] => .panicked
        | p2 :: _ =>
          match atoiInt p2 with
          | none => .fail
          | some cl =>
            if goDiv32 cl < 0 then .panicked
            else
              match readSlice rest cl with
              | .panicked => .panicked
              | .short => .fail
              | .ok respBytes rest2 =>
                match fhTake respBytes (goDiv32 cl).toNat with
                | none => .fail
                | some hs =>
                  .ok { chunkNum := num, chunkType := aType, hashLen := 32,
                        chunkLen := cl, hashes := [(host, hs)],
                        addChunkNums := [] } rest2

/-- String literal to byte list, for concrete inputs. -/
def strBytes (s : String) : List Nat := s.data.map Char.toNat


/-! ## List state engine (safebrowsinglist.go)

The claims C1–C3 concern `SafeBrowsingList.load` and `updateLookupMap` of
the HatTrie-backed variant (src/safebrowsinglist.go).  The two tries are
modelled by their net membership: `Get` after any sequence of `Set`/
`Delete` agrees with `Finset` membership (the zero-valued residue that the
cgo `delete` leaves behind is invisible to `Get`, and re-deleting it in
the full-hash sweep is idempotent).  `updateLookupMap` can panic (line
264) when a chunk's hash length contradicts the established prefix
length, and (line 278) when `key[0:len(lookup)]` slices a key shorter
than the subtracted lookup key; panics are `Except.error`. -/

/-- In-memory index of one `SafeBrowsingList` (lines 43–61): `Lookup`,
`FullHashes` and `HashPrefixLen`.  (`FullHashRequested`, `EntryCount`,
logger and lock are untouched by `load` apart from logging and are
omitted.) -/
structure LState where
  lookup : Finset Key
  fullHashes : Finset Key
  hashPrefixLen : Int
deriving DecidableEq

/-- Lines 259–267 of safebrowsinglist.go: establish the list's prefix
length from the chunk header, or panic (`none`) when it contradicts the
already established one. -/
def checkPrefLen (hl : Int) (st : LState) : Option LState :=
  if st.hashPrefixLen = 0 then some { st with hashPrefixLen := hl }
  else if st.hashPrefixLen = hl then some st else none

/-- One entry `hash` under host `host` of `updateLookupMap`
(safebrowsinglist.go lines 245–285), for a chunk of type `ct` whose
header hash length is `hl`.  In the SUB branch for a hash-length entry
(lines 275–282) the lookup key is deleted and the `FullHashes` sweep
deletes every key beginning with it; `key[0:len(lookup)]` panics when a
key is shorter than the lookup key (the sweep is order-independent, so
the panic condition is checked over the whole set). -/
def updateEntry (ct : List Nat) (hl : Int) (st : LState) (host hash : Key) :
    Except Unit LState :=
  if hash.length = 32 then
    -- lines 246–256: full-length hash
    if ct = aType then
      .ok { st with fullHashes := insert (host ++ hash) st.fullHashes }
    else if ct = sType then
      .ok { st with fullHashes := st.fullHashes.erase (host ++ hash) }
    else .ok st
  else
    match checkPrefLen hl st with
    | none => .error ()
    | some st1 =>
      if ct = aType then .ok { st1 with lookup := insert (host ++ hash) st1.lookup }
      else if ct = sType then
        if ∀ k ∈ st1.fullHashes, (host ++ hash).length ≤ k.length then
          .ok { st1 with
                lookup := st1.lookup.erase (host ++ hash),
                fullHashes := st1.fullHashes.filter
                  (fun k => ¬(k.take (host ++ hash).length = host ++ hash)) }
        else .error ()
      else .ok st1

/-- The inner `for _, hash := range hashes` loop of `updateLookupMap`. -/
def applyHashList (ct : List Nat) (hl : Int) (host : Key) :
    LState → List Key → Except Unit LState
  | st, [] => .ok st
  | st, h :: rest =>
    match updateEntry ct hl st host h with
    | .error e => .error e
    | .ok st' => applyHashList ct hl host st' rest

/-- The outer `for hostHashString, hashes := range chunk.Hashes` loop. -/
def applyHosts (ct : List Nat) (hl : Int) :
    LState → List (Key × List Key) → Except Unit LState
  | st, [] => .ok st
  | st, e :: rest =>
    match applyHashList ct hl e.1 st e.2 with
    | .error er => .error er
    | .ok st' => applyHosts ct hl st' rest

/-- `updateLookupMap` (safebrowsinglist.go lines 242–287). -/
def updateLookupMap (st : LState) (c : GChunk) : Except Unit LState :=
  applyHosts c.chunkType c.hashLen st c.hashes

/-- `m[n] = true` on a `map[ChunkNum]bool` modelled as its key list. -/
def insertOnce (l : List Nat) (n : Nat) : List Nat :=
  if n ∈ l then l else l ++ [n]

/-- Accumulator of `load`: in-memory state, `addChunkIndexes`,
`subChunkIndexes` (key lists of `map[ChunkNum]bool`), and the chunks
re-encoded into the `.tmp` file. -/
structure PCAcc where
  st : LState
  addIdx : List Nat
  subIdx : List Nat
  tmp : List GChunk
deriving DecidableEq

/-- One iteration of the chunk loops of `load` (lines 114–142 and
151–172): a chunk whose `(ChunkType, ChunkNum)` is marked in
`DeleteChunks` is skipped entirely; otherwise it is re-encoded, its
number recorded, and `updateLookupMap` applied. -/
def processChunk (del : List (Key × Finset Nat)) (acc : PCAcc) (c : GChunk) :
    Except Unit PCAcc :=
  if c.chunkNum ∈ lookupDel del c.chunkType then .ok acc
  else
    match updateLookupMap acc.st c with
    | .error e => .error e
    | .ok st' =>
      .ok { st := st',
            addIdx := if c.chunkType = aType then insertOnce acc.addIdx c.chunkNum
                      else acc.addIdx,
            subIdx := if c.chunkType = sType then insertOnce acc.subIdx c.chunkNum
                      else acc.subIdx,
            tmp := acc.tmp ++ [c] }

/-- The chunk loops of `load`, over a chunk list. -/
def processChunks (del : List (Key × Finset Nat)) :
    PCAcc → List GChunk → Except Unit PCAcc
  | acc, [] => .ok acc
  | acc, c :: rest =>
    match processChunk del acc c with
    | .error e => .error e
    | .ok acc' => processChunks del acc' rest

/-- How the gob decode loop over the persisted journal ends: clean
`io.EOF`, or any other decode error (line 143: `if err != io.EOF`). -/
inductive JEnd
  | eof
  | derr
deriving DecidableEq

/-- Outcome of `load`: `panicked` when `updateLookupMap` panics; `failed`
when the journal decode ends in a non-EOF error — `load` returns that
error without renaming `.tmp` over the journal, and the constructor
carries the in-place-mutated in-memory state and the `.tmp` contents;
`ok` carries the final state, the reset `DeleteChunks`, the rebuilt
`ChunkRanges` (as run lists, per kind) and the rewritten journal. -/
inductive LoadOut
  | panicked
  | failed (st : LState) (tmp : List GChunk)
  | ok (st : LState) (del : List (Key × Finset Nat))
      (addRuns subRuns : List (Nat × Nat)) (tmp : List GChunk)
deriving DecidableEq

/-- Whether `load` renamed `.tmp` over the journal (the rename on line 185
is reached only on the success path). -/
def LoadOut.renamed : LoadOut → Bool
  | .ok _ _ _ _ _ => true
  | _ => false

/-- `SafeBrowsingList.load` (safebrowsinglist.go lines 80–207).
`fileExists` is whether `os.Open` succeeded (otherwise the decode loop is
skipped); `jend` is how the persisted decode stream ends.  `os.Create`,
`os.Remove`, `os.Rename` and the gob encoder are modelled as succeeding. -/
def load (st0 : LState) (del : List (Key × Finset Nat)) (fileExists : Bool)
    (journal : List GChunk) (jend : JEnd) (newChunks : List GChunk) :
    LoadOut :=
  match fileExists with
  | true =>
    match processChunks del ⟨st0, [], [], []⟩ journal with
    | .error _ => .panicked
    | .ok acc1 =>
      match jend with
      | .derr => .failed acc1.st acc1.tmp
      | .eof =>
        match processChunks del acc1 newChunks with
        | .error _ => .panicked
        | .ok acc2 =>
          .ok acc2.st [] (buildChunkRanges acc2.addIdx)
            (buildChunkRanges acc2.subIdx) acc2.tmp
  | false =>
    match processChunks del ⟨st0, [], [], []⟩ newChunks with
    | .error _ => .panicked
    | .ok acc2 =>
      .ok acc2.st [] (buildChunkRanges acc2.addIdx)
        (buildChunkRanges acc2.subIdx) acc2.tmp

/-- No key of `s` begins with `pre`. -/
def noKeyPrefixed (s : Finset Key) (pre : Key) : Prop :=
  ∀ k ∈ s, k.take pre.length ≠ pre

/-- No chunk of `cs` ADDs a full-length hash whose lookup key begins with
`pre`. -/
def noFullAdds (cs : List GChunk) (pre : Key) : Prop :=
  ∀ c ∈ cs, c.chunkType = aType → ∀ e ∈ c.hashes, ∀ h ∈ e.2,
    h.length = 32 → (e.1 ++ h).take pre.length ≠ pre




/-- Structural conversion backing decidable equality of `Except`. -/
def exceptToSum {ε α : Type} : Except ε α → ε ⊕ α
  | .error e => .inl e
  | .ok a => .inr a

instance {ε α : Type} [DecidableEq ε] [DecidableEq α] :
    DecidableEq (Except ε α) := fun a b =>
  decidable_of_iff (exceptToSum a = exceptToSum b)
    (by cases a <;> cases b <;> simp [exceptToSum])

instance (s : Finset Key) (pre : Key) : Decidable (noKeyPrefixed s pre) := by
  unfold noKeyPrefixed; infer_instance

instance (cs : List GChunk) (pre : Key) : Decidable (noFullAdds cs pre) := by
  unfold noFullAdds; infer_instance

/-- Concrete SUB chunk: subtracts prefix `[5,6,7,8]` under host
`[1,2,3,4]` (its parsed origin add-chunk number, 3, is retained but not
consulted). -/
def subChunk1 : GChunk :=
  { chunkNum := 1, chunkType := sType, hashLen := 4, chunkLen := 9,
    hashes := [([1, 2, 3, 4], [[5, 6, 7, 8]])],
    addChunkNums := [([1, 2, 3, 4], [3])] }

/-- A 32-byte full hash that begins with the subtracted prefix
`[5,6,7,8]`. -/
def fullA : Key := [5, 6, 7, 8] ++ List.replicate 28 9

/-- Concrete ADD chunk carrying the 32-byte `fullA` under host
`[1,2,3,4]`. -/
def addChunk2 : GChunk :=
  { chunkNum := 2, chunkType := aType, hashLen := 32, chunkLen := 37,
    hashes := [([1, 2, 3, 4], [fullA])], addChunkNums := [] }

/-- Concrete ADD chunk inserting prefix `[5,6,7,8]` under host
`[1,2,3,4]`. -/
def addChunk1 : GChunk :=
  { chunkNum := 1, chunkType := aType, hashLen := 4, chunkLen := 9,
    hashes := [([1, 2, 3, 4], [[5, 6, 7, 8]])], addChunkNums := [] }


/-! ## Redirect directive processing (safebrowsing.go lines 247–307) -/

/-- Per-list fields of `SafeBrowsingList` touched by
`processRedirectList`: `DataRedirects` and `DeleteChunks`.  The model is
by value; the aliasing that Go map assignment introduces between a closed
section's `DeleteChunks` and the function-local `currentDeletes` map is
observable only when one list name opens two sections, which no claim
input does. -/
structure RList where
  dataRedirects : List (List Char)
  deleteChunks : List (Key × Finset Nat)
deriving DecidableEq

/-- `newSafeBrowsingList` (safebrowsinglist.go lines 63–78): empty
redirects, `DeleteChunks` holding empty ADD and SUB sets. -/
def freshRList : RList := ⟨[], [(aType, ∅), (sType, ∅)]⟩

/-- The function-local `currentDeletes` of `processRedirectList` (lines
250–252).  The `case "i"` branch creates a NEW shadow with `:=` (lines
271–273), so this outer map is never repopulated and stays empty. -/
def initDeletes : List (Key × Finset Nat) := [(aType, ∅), (sType, ∅)]

/-- The `SafeBrowsing` fields `processRedirectList` touches:
`UpdateDelay` and `Lists` (name ↦ per-list state). -/
structure RState where
  updateDelay : Int
  lists : List (List Char × RList)
deriving DecidableEq

/-- Update the named list in `ss.Lists`; `none` models the nil-pointer
panic of assigning a field of `ss.Lists[name]` when `name` is absent. -/
def updateRList (ls : List (List Char × RList)) (name : List Char)
    (f : RList → RList) : Option (List (List Char × RList)) :=
  match ls with
  | [] => none
  | e :: rest =>
    if e.1 = name then some ((e.1, f e.2) :: rest)
    else (updateRList rest name f).map (e :: ·)

/-- `m[kind] = s` on the per-list `DeleteChunks` map. -/
def setDel (d : List (Key × Finset Nat)) (kind : Key) (s : Finset Nat) :
    List (Key × Finset Nat) :=
  match d with
  | [] => [(kind, s)]
  | e :: rest => if e.1 = kind then (kind, s) :: rest else e :: setDel rest kind s

/-- `strings.SplitN(line, ":", 2)`. -/
def splitN2 (line : List Char) : List (List Char) :=
  go line []
where
  go : List Char → List Char → List (List Char)
    | [], acc => [acc.reverse]
    | c :: rest, acc =>
      if c = ':' then [acc.reverse, rest] else go rest (c :: acc)

/-- Decimal value of a nonempty all-digit character list. -/
def digitsValChars (ds : List Char) : Option Nat :=
  if ds.isEmpty then none
  else if ds.all (·.isDigit) then
    some (ds.foldl (fun n c => n * 10 + (c.toNat - 48)) 0)
  else none

/-- `strconv.Atoi` over the scanner's text lines. -/
def atoiIntChars (s : List Char) : Option Int :=
  match s with
  | '+' :: rest =>
    (digitsValChars rest).bind fun n =>
      if n ≤ 2 ^ 63 - 1 then some (Int.ofNat n) else none
  | '-' :: rest =>
    (digitsValChars rest).bind fun n =>
      if n ≤ 2 ^ 63 then some (-(Int.ofNat n)) else none
  | _ =>
    (digitsValChars s).bind fun n =>
      if n ≤ 2 ^ 63 - 1 then some (Int.ofNat n) else none

inductive ROut
  | done (st : RState)
  | errParse
  | errServer (msg : List Char)
  | resetRequested (st : RState)
  | panicked
deriving DecidableEq

/-- The scanner loop of `processRedirectList` (safebrowsing.go lines
254–302).  `cur`/`curName` are `currentList` (nil ↦ `none`) and
`currentListName`; the function-level `currentDeletes` is never mutated
(its would-be reset in `case "i"` creates a dead shadow instead), so
`initDeletes` is what every section close stores into the list's
`DeleteChunks` (lines 267 and 302).  `u:` prepends `"http://"` (line
275).  `bits[1]` on a line without a colon, and `ss.Lists[name]` for an
unknown name, panic. -/
def processLines (st : RState) (cur : Option (List (List Char)))
    (curName : List Char) : List (List Char) → ROut
  | [] =>
    match updateRList st.lists curName (fun _ => ⟨cur.getD [], initDeletes⟩) with
    | none => .panicked
    | some ls => .done { st with lists := ls }
  | line :: rest =>
    match splitN2 line with
    | [] => .panicked
    | b0 :: brest =>
      if b0 = "r".data then .resetRequested st
      else if b0 = "i".data then
        match brest with
        | [] => .panicked
        | b1 :: _ =>
          match cur with
          | some l =>
            match updateRList st.lists curName (fun _ => ⟨l, initDeletes⟩) with
            | none => .panicked
            | some ls => processLines { st with lists := ls } (some []) b1 rest
          | none => processLines st (some []) b1 rest
      else if b0 = "u".data then
        match brest with
        | [] => .panicked
        | b1 :: _ =>
          processLines st (some (cur.getD [] ++ ["http://".data ++ b1]))
            curName rest
      else if b0 = "n".data then
        match brest with
        | [] => .panicked
        | b1 :: _ =>
          match atoiIntChars b1 with
          | none => .errParse
          | some v => processLines { st with updateDelay := v } cur curName rest
      else if b0 = "e".data then
        match brest with
        | [] => .panicked
        | b1 :: _ => .errServer b1
      else if b0 = "ad".data then
        match brest with
        | [] => .panicked
        | b1 :: _ =>
          match parseChunkRange b1 with
          | .error _ => .errParse
          | .ok s =>
            match updateRList st.lists curName
                (fun rl => { rl with deleteChunks := setDel rl.deleteChunks aType s }) with
            | none => .panicked
            | some ls => processLines { st with lists := ls } cur curName rest
      else if b0 = "sd".data then
        match brest with
        | [] => .panicked
        | b1 :: _ =>
          match parseChunkRange b1 with
          | .error _ => .errParse
          | .ok s =>
            match updateRList st.lists curName
                (fun rl => { rl with deleteChunks := setDel rl.deleteChunks sType s }) with
            | none => .panicked
            | some ls => processLines { st with lists := ls } cur curName rest
      else processLines st cur curName rest

/-- `processRedirectList` (safebrowsing.go lines 247–307), over the
scanner's lines. -/
def processRedirectList (st : RState) (lines : List (List Char)) : ROut :=
  processLines st none [] lines

/-- The literal redirect stream of spec scenario 4 (claim C6), as lines. -/
def scenario4Lines : List (List Char) :=
  ["n:1200", "i:phish", "u:cache.example/first", "u:cache.example/first_1",
   "sd:1,2", "i:malware", "u:cache.example/second", "ad:1-2,4-5,7",
   "sd:2-6"].map String.data

/-- Initial state for scenario 4: both lists known and fresh. -/
def scenario4Init : RState :=
  ⟨0, [("phish".data, freshRList), ("malware".data, freshRList)]⟩

/-! ## Full-hash 503 back-off (src/unnamed/part_004 lines 320–369) -/

inductive BackoffOutcome
  | nilDereference
deriving DecidableEq

/-- `doFullHashBackOffRequest` declares `var response *http.Response`
(nil) and immediately executes `response.StatusCode = 503` (part_004
lines 324–325), a field write through a nil pointer: the goroutine
panics before its first sleep or request.  The retry loop that follows
is unreachable and is not modelled further. -/
def doFullHashBackOffRequest (_url _body : List Char) : BackoffOutcome :=
  match (none : Option Nat) with
  | none => .nilDereference
  | some _ => .nilDereference


/-! ## Lookup pipeline (src/unnamed/part_004)

`queryUrl`, `requestFullHashes` and the full-hash cache of the part_004
variant.  `Canonicalize`, `GenerateTestCandidates` and SHA-256 live
outside the model: `queryUrl` takes the list of candidate URL hashes
(`getHash(url)` per candidate, 32-byte keys) directly.  The HTTP
transport is a parameter giving the outcome of each gethash POST; a 200
body is abstracted as its envelope TTL plus the parsed
`(listName, hash)` records that `processFullHashes` would extract (the
wire parse itself is settled under claim C9). -/

/-- Per-list state used by `queryUrl`: the `Lookup`, `FullHashes` and
`FullHashRequested` tries (net membership) and the `Cache`,
`FullHash ↦ (seconds elapsed since CreationDate, CacheLifeTime)`. -/
structure L4 where
  lookup : Finset Key
  fullHashes : Finset Key
  fullHashRequested : Finset Key
  cache : List (Key × Nat × Nat)
deriving DecidableEq

/-- The `SafeBrowsing` fields `queryUrl` consults: the lists (Go map, in
a fixed iteration order), `OfflineMode`, and seconds since
`LastUpdated`. -/
structure SB4 where
  lists : List (String × L4)
  offline : Bool
  sinceUpdateSec : Nat
deriving DecidableEq

/-- `FullHashCache.checkValidity` (part_004 lines 169–171). -/
def checkValidity (elapsed lifeTime : Nat) : Bool := elapsed < lifeTime

/-- `IsUpToDate` (part_004 lines 158–160): `!OfflineMode &&
time.Since(LastUpdated) < 45*time.Minute`. -/
def IsUpToDate (sb : SB4) : Bool := !sb.offline && sb.sinceUpdateSec < 2700

/-- Outcome of one `sb.request` gethash POST. -/
inductive FHTransport
  | terr
  | tresp (status : Nat) (ttl : Nat) (records : List (String × Key))

/-- Errors `queryUrl` can return. -/
inductive QErr
  | stale
  | transportErr
  | mixedLen
  | tempUnavailable
  | upstream (status : Nat)
  | dataErr
deriving DecidableEq

/-- The `(list, fullHashMatch, err)` result of `queryUrl`. -/
inductive QOut
  | res (listName : String) (fullHashMatch : Bool)
  | qerr (e : QErr)
deriving DecidableEq

def cacheFind (c : List (Key × Nat × Nat)) (h : Key) : Option (Nat × Nat) :=
  (c.find? (fun e => e.1 = h)).map (·.2)

/-- `delete(sbl.Cache, key)`. -/
def cacheRemove (c : List (Key × Nat × Nat)) (h : Key) : List (Key × Nat × Nat) :=
  c.filter (fun e => ¬ e.1 = h)

/-- `sbl.Cache[hash] = newFullHashCache(time.Now(), ttl)`: a fresh entry
with elapsed 0. -/
def setCache (c : List (Key × Nat × Nat)) (h : Key) (ttl : Nat) :
    List (Key × Nat × Nat) :=
  match c with
  | [] => [(h, 0, ttl)]
  | e :: rest => if e.1 = h then (h, 0, ttl) :: rest else e :: setCache rest h ttl

/-- Cache eviction for one candidate hash (part_004 lines 105–111): an
expired entry is dropped together with the prefix's pending flag and the
full hash itself. -/
def evict (l4 : L4) (u : Key) : L4 :=
  match cacheFind l4.cache u with
  | some (el, lt) =>
    if ¬ checkValidity el lt then
      { l4 with
          cache := cacheRemove l4.cache u,
          fullHashRequested := l4.fullHashRequested.erase (u.take 4),
          fullHashes := l4.fullHashes.erase u }
    else l4
  | none => l4

/-- `keysToLookupMap[prefix] = true` (insertion-ordered key list). -/
def insertOnceKey (l : List Key) (k : Key) : List Key :=
  if k ∈ l then l else l ++ [k]

/-- The per-list candidate loop of `queryUrl` (part_004 lines 97–133):
cache eviction, full-hash probe, prefix probe; returns the updated list
state, the accumulated `keysToLookupMap`, and `some fullHashMatch` when
the loop returned early. -/
def scanCandidates (matchFullHash offline : Bool) :
    L4 → List Key → List Key → L4 × List Key × Option Bool
  | l4, acc, [] => (l4, acc, none)
  | l4, acc, u :: rest =>
    if u ∈ (evict l4 u).fullHashes then (evict l4 u, acc, some true)
    else if u.take 4 ∈ (evict l4 u).lookup then
      if !matchFullHash || offline then (evict l4 u, acc, some false)
      else if u.take 4 ∈ (evict l4 u).fullHashRequested then
        scanCandidates matchFullHash offline (evict l4 u) acc rest
      else scanCandidates matchFullHash offline (evict l4 u)
        (insertOnceKey acc (u.take 4)) rest
    else scanCandidates matchFullHash offline (evict l4 u) acc rest

def lookupL4 (ls : List (String × L4)) (name : String) : Option L4 :=
  (ls.find? (fun e => e.1 = name)).map (·.2)

/-- Write one list's state back into the map. -/
def setL4 (ls : List (String × L4)) (name : String) (l4 : L4) :
    List (String × L4) :=
  match ls with
  | [] => []
  | e :: rest => if e.1 = name then (e.1, l4) :: rest else e :: setL4 rest name l4

/-- Lines 209–211: `sb.Lists[list].FullHashRequested.Set(prefix)` for
every requested prefix (after the response has been received). -/
def markRequested (ls : List (String × L4)) (name : String) (ps : List Key) :
    List (String × L4) :=
  match ls with
  | [] => []
  | e :: rest =>
    if e.1 = name then
      (e.1, { e.2 with fullHashRequested :=
                ps.foldl (fun s p => insert p s) e.2.fullHashRequested }) :: rest
    else e :: markRequested rest name ps

/-- `readFullHashChunk` effect for one record (part_004 lines 297–317):
`FullHashes.Set(hash)` and a fresh cache entry; `none` when the named
list is missing (the Go code returns an error). -/
def applyRecord (ls : List (String × L4)) (name : String) (h : Key)
    (ttl : Nat) : Option (List (String × L4)) :=
  match ls with
  | [] => none
  | e :: rest =>
    if e.1 = name then
      some ((e.1, { e.2 with
                      fullHashes := insert h e.2.fullHashes,
                      cache := setCache e.2.cache h ttl }) :: rest)
    else (applyRecord rest name h ttl).map (e :: ·)

/-- `processFullHashes` over the pre-parsed records of a 200 body. -/
def applyRecords (ls : List (String × L4)) (records : List (String × Key))
    (ttl : Nat) : Option (List (String × L4)) :=
  match records with
  | [] => some ls
  | r :: rest =>
    match applyRecord ls r.1 r.2 ttl with
    | none => none
    | some ls1 => applyRecords ls1 rest ttl

/-- The body-building loop of `requestFullHashes` (lines 181–193) in the
model's prefix order: true when the variable-length check trips. -/
def mixedLenCheck : Nat → List Key → Bool
  | _, [] => false
  | f, p :: rest =>
    let f1 := if f = 0 then p.length else f
    if ¬ (f1 = p.length) then true else mixedLenCheck f1 rest

/-- Result of one `requestFullHashes` call: the updated lists, the
gethash requests issued (list name with prefix payload), and the error
returned. -/
structure FHResult where
  lists : List (String × L4)
  issued : List (String × List Key)
  err : Option QErr

/-- Outcome of the 200-body processing: `ioutil.ReadAll` +
`processFullHashes` (part_004 lines 222–226). -/
def applyOutcome (ls1 : List (String × L4)) (req : String × List Key) :
    Option (List (String × L4)) → FHResult
  | none => ⟨ls1, [req], some .dataErr⟩
  | some ls2 => ⟨ls2, [req], none⟩

/-- `requestFullHashes` (part_004 lines 174–227).  The marking of
`FullHashRequested` (lines 209–211) happens AFTER `sb.request` returns,
and regardless of the response status; the 503 background retry
goroutine is outside this sequential model (the claims count requests
issued by `queryUrl` calls). -/
def requestFullHashes (ls : List (String × L4)) (listName : String)
    (prefixes : List Key) (transport : FHTransport) : FHResult :=
  if prefixes.isEmpty then ⟨ls, [], none⟩
  else if mixedLenCheck 0 prefixes then ⟨ls, [], some .mixedLen⟩
  else
    match transport with
    | .terr => ⟨ls, [(listName, prefixes)], some .transportErr⟩
    | .tresp status ttl records =>
      let ls1 := markRequested ls listName prefixes
      if status = 200 then
        applyOutcome ls1 (listName, prefixes) (applyRecords ls1 records ttl)
      else if status = 503 then ⟨ls1, [(listName, prefixes)], some .tempUnavailable⟩
      else ⟨ls1, [(listName, prefixes)], some (.upstream status)⟩

/-- The `for list, sbl := range sb.Lists` loop of `queryUrl` (part_004
lines 92–153), visiting the map's names in order while threading the
whole map (a 200 body can touch other lists).  The `lookupL4 = none`
branch is unreachable: `names` are the map's keys and no operation
removes a key. -/
def queryLoop (matchFullHash offline : Bool) (cands : List Key)
    (transport : String → List Key → FHTransport) :
    List (String × L4) → List String → List (String × List Key) →
    List (String × L4) × List (String × List Key) × Option QOut
  | ls, [], issued => (ls, issued, none)
  | ls, name :: names, issued =>
    match lookupL4 ls name with
    | none => queryLoop matchFullHash offline cands transport ls names issued
    | some l4 =>
      match scanCandidates matchFullHash offline l4 [] cands with
      | (l4a, _, some b) => (setL4 ls name l4a, issued, some (.res name b))
      | (l4a, keys, none) =>
        let ls1 := setL4 ls name l4a
        if keys.isEmpty then
          queryLoop matchFullHash offline cands transport ls1 names issued
        else
          let r := requestFullHashes ls1 name keys (transport name keys)
          match r.err with
          | some e => (r.lists, issued ++ r.issued, some (.qerr e))
          | none =>
            -- lines 142–150: re-check the candidates for a full-hash hit
            match lookupL4 r.lists name with
            | none => queryLoop matchFullHash offline cands transport r.lists names (issued ++ r.issued)
            | some l4r =>
              if cands.any (fun u => decide (u ∈ l4r.fullHashes)) then
                (r.lists, issued ++ r.issued, some (.res name true))
              else
                queryLoop matchFullHash offline cands transport r.lists names (issued ++ r.issued)

/-- The `(sb, issued, out)` result of one `queryUrl` call. -/
structure QResult where
  sb : SB4
  issued : List (String × List Key)
  out : QOut

/-- `queryUrl` (part_004 lines 79–155) over pre-hashed candidates. -/
def queryUrl (sb : SB4) (cands : List Key) (matchFullHash : Bool)
    (transport : String → List Key → FHTransport) : QResult :=
  if matchFullHash && !(IsUpToDate sb) then ⟨sb, [], .qerr .stale⟩
  else
    match queryLoop matchFullHash sb.offline cands transport sb.lists
        (sb.lists.map (·.1)) [] with
    | (ls, issued, out) =>
      ⟨{ sb with lists := ls }, issued, out.getD (.res "" false)⟩

/-- `IsListed` (part_004 lines 63–66). -/
def IsListed (sb : SB4) (cands : List Key)
    (transport : String → List Key → FHTransport) : QResult :=
  queryUrl sb cands true transport

/-- `MightBeListed` (part_004 lines 72–74). -/
def MightBeListed (sb : SB4) (cands : List Key)
    (transport : String → List Key → FHTransport) : QResult :=
  queryUrl sb cands false transport

/-- One lookup call of a session: its candidates, mode, and the
transport behaviour in effect while it runs. -/
structure SessionStep where
  cands : List Key
  matchFullHash : Bool
  transport : String → List Key → FHTransport

/-- A sequential session of `queryUrl` calls, collecting every gethash
request issued. -/
def session : SB4 → List SessionStep → SB4 × List (String × List Key)
  | sb, [] => (sb, [])
  | sb, s :: rest =>
    match queryUrl sb s.cands s.matchFullHash s.transport with
    | r =>
      match session r.sb rest with
      | (sb', reqs) => (sb', r.issued ++ reqs)

/-- The pending-request set of one list. -/
def marked (ls : List (String × L4)) (name : String) : Finset Key :=
  ((lookupL4 ls name).map (·.fullHashRequested)).getD ∅

/-- How many issued requests carry prefix `p` for list `l`. -/
def countP (reqs : List (String × List Key)) (l : String) (p : Key) : Nat :=
  (reqs.filter (fun r => r.1 = l ∧ p ∈ r.2)).length

/-- Every cache entry of every list is still valid (no cache
invalidation happens: the caveat of spec P7). -/
def validCachesL (ls : List (String × L4)) : Prop :=
  ∀ e ∈ ls, ∀ ce ∈ e.2.cache, ce.2.1 < ce.2.2

instance (ls : List (String × L4)) : Decidable (validCachesL ls) := by
  unfold validCachesL; infer_instance

/-- Every gethash POST receives a response (no transport error) whose
envelope TTL is positive. -/
def goodTransport (tr : String → List Key → FHTransport) : Prop :=
  ∀ n ps, match tr n ps with
    | .terr => False
    | .tresp _ ttl _ => 0 < ttl

/-- Concrete list state for the C4/C5 examples: prefix `[1,2,3,4]`
present in the lookup trie, everything else empty. -/
def l4Ex : L4 := ⟨{[1, 2, 3, 4]}, ∅, ∅, []⟩

/-- Concrete client state: one list `"l"`, online, just updated. -/
def sb4Ex : SB4 := ⟨[("l", l4Ex)], false, 0⟩

/-- A transport that always fails at the HTTP level. -/
def trErr : String → List Key → FHTransport := fun _ _ => .terr

/-- A transport that always answers 200 with an empty body and TTL 1. -/
def trOk : String → List Key → FHTransport := fun _ _ => .tresp 200 1 []

/-- One candidate hash whose 4-byte prefix is `[1,2,3,4]`. -/
def candEx : Key := [1, 2, 3, 4, 5]

/-- A session step: look `candEx` up with full-hash confirmation. -/
def stepErrEx : SessionStep := ⟨[candEx], true, trErr⟩

/-- The same lookup against the 200-answering transport. -/
def stepOkEx : SessionStep := ⟨[candEx], true, trOk⟩

/-! # Theorems -/

theorem chopRuns_covered (n : Nat) :
    ∀ (rest : List Nat) (lo hi : Nat), lo ≤ hi →
      (covered n (chopRuns lo hi rest) ↔ (lo ≤ n ∧ n ≤ hi) ∨ n ∈ rest) := by
  intro rest
  induction rest with
  | nil =>
    intro lo hi _
    simp [chopRuns, covered]
  | cons b rest ih =>
    intro lo hi hlohi
    by_cases hb : b = hi + 1
    · subst hb
      have hstep : chopRuns lo hi ((hi + 1) :: rest) = chopRuns lo (hi + 1) rest := by
        simp [chopRuns]
      rw [hstep, ih lo (hi + 1) (by omega)]
      constructor
      · rintro (⟨h2, h3⟩ | h2)
        · rcases Nat.lt_or_ge n (hi + 1) with h4 | h4
          · exact Or.inl ⟨h2, by omega⟩
          · have hnb : n = hi + 1 := by omega
            exact Or.inr (by simp [hnb])
        · exact Or.inr (by simp [h2])
      · rintro (⟨h2, h3⟩ | h2)
        · exact Or.inl ⟨h2, by omega⟩
        · rcases List.mem_cons.mp h2 with h3 | h3
          · exact Or.inl ⟨by omega, by omega⟩
          · exact Or.inr h3
    · have h1 := ih b b (le_refl b)
      simp only [chopRuns, if_neg hb]
      constructor
      · rintro ⟨r, hr, h2, h3⟩
        rcases List.mem_cons.mp hr with h4 | h4
        · subst h4; exact Or.inl ⟨h2, h3⟩
        · have h5 : covered n (chopRuns b b rest) := ⟨r, h4, h2, h3⟩
          rcases h1.mp h5 with ⟨h6, h7⟩ | h6
          · have : n = b := by omega
            exact Or.inr (by simp [this])
          · exact Or.inr (by simp [h6])
      · rintro (⟨h2, h3⟩ | h2)
        · exact ⟨(lo, hi), by simp, h2, h3⟩
        · rcases List.mem_cons.mp h2 with h3 | h3
          · have h4 : covered n (chopRuns b b rest) :=
              h1.mpr (Or.inl ⟨by omega, by omega⟩)
            rcases h4 with ⟨r, hr, h5⟩
            exact ⟨r, by simp [hr], h5⟩
          · have h4 : covered n (chopRuns b b rest) := h1.mpr (Or.inr h3)
            rcases h4 with ⟨r, hr, h5⟩
            exact ⟨r, by simp [hr], h5⟩

theorem mem_insNat (x a : Nat) (l : List Nat) :
    x ∈ insNat a l ↔ x = a ∨ x ∈ l := by
  induction l with
  | nil => simp [insNat]
  | cons b l ih =>
    by_cases h : a ≤ b
    · simp [insNat, h]
    · simp only [insNat, if_neg h, List.mem_cons, ih]
      tauto

theorem mem_sortNat (x : Nat) (l : List Nat) : x ∈ sortNat l ↔ x ∈ l := by
  induction l with
  | nil => simp [sortNat]
  | cons a l ih =>
    simp only [sortNat, List.foldr_cons] at *
    rw [mem_insNat, ih, List.mem_cons]

/-- The emitted range expression mentions exactly the members of the
index list. -/
theorem buildChunkRanges_covered (l : List Nat) (n : Nat) :
    covered n (buildChunkRanges l) ↔ n ∈ l := by
  unfold buildChunkRanges
  rcases hs : sortNat l with _ | ⟨a, rest⟩
  · rw [← mem_sortNat n l, hs]
    constructor
    · rintro ⟨r, hr, _⟩; simp at hr
    · intro hn; simp at hn
  · rw [chopRuns_covered n rest a a (le_refl a), ← mem_sortNat n l, hs]
    constructor
    · rintro (⟨h1, h2⟩ | h1)
      · have : n = a := by omega
        simp [this]
      · simp [h1]
    · intro hn
      rcases List.mem_cons.mp hn with h1 | h1
      · exact Or.inl (by omega)
      · exact Or.inr h1

theorem lexLeB_total (a b : Key) : lexLeB a b = true ∨ lexLeB b a = true := by
  induction a generalizing b with
  | nil => exact Or.inl rfl
  | cons x as ih =>
    cases b with
    | nil => exact Or.inr rfl
    | cons y bs =>
      rcases Nat.lt_trichotomy x y with h | h | h
      · exact Or.inl (by simp [lexLeB, h])
      · subst h
        rcases ih bs with h1 | h1
        · exact Or.inl (by simp [lexLeB, h1])
        · exact Or.inr (by simp [lexLeB, h1])
      · exact Or.inr (by simp [lexLeB, h])

theorem lexLeB_trans : ∀ {a b c : Key},
    lexLeB a b = true → lexLeB b c = true → lexLeB a c = true := by
  intro a
  induction a with
  | nil => intro b c _ _; rfl
  | cons x as ih =>
    intro b c hab hbc
    cases b with
    | nil => simp [lexLeB] at hab
    | cons y bs =>
      cases c with
      | nil => simp [lexLeB] at hbc
      | cons z cs =>
        simp only [lexLeB] at hab hbc ⊢
        rcases Nat.lt_trichotomy x y with h1 | h1 | h1
        · rcases Nat.lt_trichotomy y z with h2 | h2 | h2
          · simp [show x < z by omega]
          · subst h2; simp [h1]
          · simp [show ¬ y < z by omega, show z < y from h2] at hbc
        · subst h1
          rcases Nat.lt_trichotomy x z with h2 | h2 | h2
          · simp [h2]
          · subst h2
            simp only [lt_irrefl, if_false] at hab hbc ⊢
            exact ih hab hbc
          · simp [show ¬ x < z by omega, h2] at hbc
        · simp [show ¬ x < y by omega, h1] at hab

theorem mem_insLex (x a : Key) (l : List Key) :
    x ∈ insLex a l ↔ x = a ∨ x ∈ l := by
  induction l with
  | nil => simp [insLex]
  | cons b l ih =>
    by_cases h : lexLeB a b
    · simp [insLex, h]
    · simp only [insLex, if_neg h, List.mem_cons, ih]
      tauto

theorem mem_sortLex (x : Key) (l : List Key) : x ∈ sortLex l ↔ x ∈ l := by
  induction l with
  | nil => simp [sortLex]
  | cons a l ih =>
    simp only [sortLex, List.foldr_cons] at *
    rw [mem_insLex, ih, List.mem_cons]

theorem pairwise_insLex (a : Key) (l : List Key)
    (h : l.Pairwise (fun x y => lexLeB x y = true)) :
    (insLex a l).Pairwise (fun x y => lexLeB x y = true) := by
  induction l with
  | nil => simp [insLex]
  | cons b l ih =>
    rcases List.pairwise_cons.mp h with ⟨hb, hl⟩
    by_cases hab : lexLeB a b
    · rw [insLex, if_pos hab]
      refine List.pairwise_cons.mpr ⟨?_, h⟩
      intro y hy
      rcases List.mem_cons.mp hy with h1 | h1
      · subst h1; exact hab
      · exact lexLeB_trans hab (hb y h1)
    · rw [insLex, if_neg hab]
      refine List.pairwise_cons.mpr ⟨?_, ih hl⟩
      intro y hy
      rcases (mem_insLex y a l).mp hy with h1 | h1
      · subst h1
        rcases lexLeB_total y b with h2 | h2
        · exact absurd h2 hab
        · exact h2
      · exact hb y h1

theorem sortLex_pairwise (l : List Key) :
    (sortLex l).Pairwise (fun x y => lexLeB x y = true) := by
  induction l with
  | nil => simp [sortLex]
  | cons a l ih => exact pairwise_insLex a (sortLex l) ih

theorem find?_map_update (l : List (Key × Nat)) (c : Key) (v : Nat) :
    ((l.map fun e => if e.1 = c then (e.1, v) else e).find?
        (fun e => e.1 = c)) =
      (l.find? (fun e => e.1 = c)).map (fun e => (e.1, v)) := by
  induction l with
  | nil => rfl
  | cons e l ih =>
    by_cases h : e.1 = c
    · simp [List.find?, h]
    · simp [List.find?, h, ih]

theorem map_fst_update (l : List (Key × Nat)) (c : Key) (v : Nat) :
    (l.map fun e => if e.1 = c then (e.1, v) else e).map (·.1) =
      l.map (·.1) := by
  rw [List.map_map]
  apply List.map_congr_left
  intro e _
  by_cases h : e.1 = c <;> simp [h]

theorem hatGet_hatSet (t : HatTrieC) (k : Key) : hatGet (hatSet t k) k = true := by
  unfold hatGet hatSet hatRawGet
  rcases hf : t.entries.find? (fun e => e.1 = cstr k) with _ | e
  · rw [hf]
    show decide (Option.getD (Option.map _ (List.find? _ (_ ++ [(cstr k, 1)]))) 0 = 1) = true
    rw [List.find?_append, hf]
    simp [List.find?]
  · rw [hf]
    show decide (Option.getD (Option.map _ (List.find? _ (List.map _ t.entries))) 0 = 1) = true
    rw [find?_map_update, hf]
    simp

theorem hatGet_hatDelete (t : HatTrieC) (k : Key) :
    hatGet (hatDelete t k) k = false := by
  unfold hatGet hatDelete hatRawGet
  rw [find?_map_update]
  rcases hf : t.entries.find? (fun e => e.1 = cstr k) with _ | e
  · rw [hf]; simp
  · rw [hf]; simp

theorem hatIterKeys_hatDelete (t : HatTrieC) (k : Key) :
    hatIterKeys (hatDelete t k) = hatIterKeys t := by
  unfold hatIterKeys hatDelete
  rw [map_fst_update]

theorem hatIterKeys_mem (t : HatTrieC) (k : Key) :
    k ∈ hatIterKeys t ↔ ∃ v, (k, v) ∈ t.entries := by
  unfold hatIterKeys
  rw [mem_sortLex, List.mem_map]
  constructor
  · rintro ⟨e, he, hk⟩
    exact ⟨e.2, by rwa [show (k, e.2) = e from by rw [← hk]]⟩
  · rintro ⟨v, hv⟩
    exact ⟨(k, v), hv, rfl⟩



/-- C8, counterexample: the claim "a key that has been Delete'd is not
yielded by a subsequent Iterator" is false — after `Set "a"` then
`Delete "a"`, `Get` returns false yet the iterator still yields the key,
because the cgo `delete` only stores value 0 and leaves the key in the
trie. -/
theorem c8_counterexample :
    hatGet (hatDelete (hatSet NewTrieC [97]) [97]) [97] = false ∧
    hatIterKeys (hatDelete (hatSet NewTrieC [97]) [97]) = [[97]] := by
  constructor
  · decide
  · decide

/-- C8 (amended): for every key `k`, `Get(k)` is true after `Set(k)` and
false after `Delete(k)` (including when `k` was never set); but the
iterator yields, in lexicographically sorted order, every key stored in
the underlying trie — i.e. every key ever `Set` (truncated at its first
NUL byte by `C.CString`) — and `Delete` leaves the iteration unchanged,
so a deleted key is still yielded. -/
theorem c8_amended :
    (∀ (t : HatTrieC) (k : Key), hatGet (hatSet t k) k = true) ∧
    (∀ (t : HatTrieC) (k : Key), hatGet (hatDelete t k) k = false) ∧
    (∀ (t : HatTrieC) (k : Key), hatIterKeys (hatDelete t k) = hatIterKeys t) ∧
    (∀ t : HatTrieC, (hatIterKeys t).Pairwise (fun x y => lexLeB x y = true)) ∧
    (∀ (t : HatTrieC) (k : Key), k ∈ hatIterKeys t ↔ ∃ v, (k, v) ∈ t.entries) :=
  ⟨hatGet_hatSet, hatGet_hatDelete, hatIterKeys_hatDelete,
    fun _ => sortLex_pairwise _, hatIterKeys_mem⟩

/-- C7: when `ReadChunk` reaches a host record whose count byte is 0, the
4-byte host hash itself is recorded as the single entry for that host
(chunk.go lines 145–147); for a SUB chunk a 4-byte big-endian origin
add-chunk number is additionally consumed from the body and recorded for
that host (lines 148–159) before parsing moves to the next record.  The
first two conjuncts are the record-level step equations; the last two
evaluate `ReadChunk` end to end (the ADD one is spec scenario 5). -/
theorem c7_count_zero :
    (∀ (hl : Int) (fuel : Nat) (acc : RecAcc) (h1 h2 h3 h4 b1 b2 b3 b4 : Nat)
        (rest : List Nat),
      parseRecords sType hl (fuel + 1) acc
          (h1 :: h2 :: h3 :: h4 :: 0 :: b1 :: b2 :: b3 :: b4 :: rest) =
        parseRecords sType hl fuel
          (appendACN
            (appendHash (ensureHost sType acc [h1, h2, h3, h4])
              [h1, h2, h3, h4] [h1, h2, h3, h4])
            [h1, h2, h3, h4] (beNum b1 b2 b3 b4)) rest) ∧
    (∀ (hl : Int) (fuel : Nat) (acc : RecAcc) (h1 h2 h3 h4 : Nat)
        (rest : List Nat),
      parseRecords aType hl (fuel + 1) acc
          (h1 :: h2 :: h3 :: h4 :: 0 :: rest) =
        parseRecords aType hl fuel
          (appendHash (ensureHost aType acc [h1, h2, h3, h4])
            [h1, h2, h3, h4] [h1, h2, h3, h4]) rest) ∧
    ReadChunk (strBytes "a:9:4:5\n" ++ [1, 1, 1, 1, 0]) =
      .ok { chunkNum := 9, chunkType := aType, hashLen := 4, chunkLen := 5,
            hashes := [([1, 1, 1, 1], [[1, 1, 1, 1]])], addChunkNums := [] }
        [] ∧
    ReadChunk (strBytes "s:9:4:9\n" ++ [1, 1, 1, 1, 0, 0, 0, 0, 7]) =
      .ok { chunkNum := 9, chunkType := sType, hashLen := 4, chunkLen := 9,
            hashes := [([1, 1, 1, 1], [[1, 1, 1, 1]])],
            addChunkNums := [([1, 1, 1, 1], [7])] } [] :=
  ⟨fun _ _ _ _ _ _ _ _ _ _ _ _ => rfl, fun _ _ _ _ _ _ _ _ => rfl,
    by decide, by decide⟩

/-- C9: refuted evaluations — the chunk readers are not total over all
header field values.  A regular chunk header with a negative `chunkLen`
reaches `make([]byte, 0, numBytes)` in `readSlice` with a negative
capacity (runtime panic), and a full-hash header with fewer than three
colon-separated fields indexes `bits[1]`/`bits[2]` out of range (runtime
panic), instead of returning an error as the claim states. -/
theorem c9_panics :
    ReadChunk (strBytes "a:1:4:-1\n") = .panicked ∧
    ReadFullHashChunk (strBytes "l:1\n") [1, 1, 1, 1] = .panicked ∧
    ReadFullHashChunk (strBytes "nocolons\n") [1, 1, 1, 1] = .panicked := by
  refine ⟨by decide, by decide, by decide⟩


/-! ### Lemmas about the list state engine -/

theorem aType_ne_sType : aType ≠ sType := by decide

theorem sType_ne_aType : sType ≠ aType := by decide

theorem insertOnce_mem (x : Nat) (l : List Nat) (n : Nat) :
    x ∈ insertOnce l n ↔ x ∈ l ∨ x = n := by
  unfold insertOnce
  by_cases h : n ∈ l
  · rw [if_pos h]
    constructor
    · exact Or.inl
    · rintro (h1 | h1)
      · exact h1
      · exact h1 ▸ h
  · rw [if_neg h]
    simp

theorem noKeyPrefixed_subset {s s' : Finset Key} {pre : Key}
    (hsub : s' ⊆ s) (h : noKeyPrefixed s pre) : noKeyPrefixed s' pre :=
  fun k hk => h k (hsub hk)

theorem checkPrefLen_fullHashes {hl : Int} {st st1 : LState}
    (h : checkPrefLen hl st = some st1) :
    st1.fullHashes = st.fullHashes ∧ st1.lookup = st.lookup := by
  unfold checkPrefLen at h
  by_cases h0 : st.hashPrefixLen = 0
  · rw [if_pos h0] at h
    cases h
    exact ⟨rfl, rfl⟩
  · rw [if_neg h0] at h
    by_cases h1 : st.hashPrefixLen = hl
    · rw [if_pos h1] at h
      cases h
      exact ⟨rfl, rfl⟩
    · rw [if_neg h1] at h
      cases h

/-- Preservation: an entry that is not a full-hash ADD of a key beginning
with `pre` cannot introduce a `FullHashes` key beginning with `pre`. -/
theorem updateEntry_pres {ct : List Nat} {hl : Int} {st st' : LState}
    {host h pre : Key}
    (hok : updateEntry ct hl st host h = .ok st')
    (hinv : noKeyPrefixed st.fullHashes pre)
    (hadd : ct = aType → h.length = 32 → (host ++ h).take pre.length ≠ pre) :
    noKeyPrefixed st'.fullHashes pre := by
  unfold updateEntry at hok
  by_cases h32 : h.length = 32
  · rw [if_pos h32] at hok
    by_cases ha : ct = aType
    · rw [if_pos ha] at hok
      cases hok
      intro k hk
      rcases Finset.mem_insert.mp hk with h1 | h1
      · exact h1 ▸ hadd ha h32
      · exact hinv k h1
    · rw [if_neg ha] at hok
      by_cases hs : ct = sType
      · rw [if_pos hs] at hok
        cases hok
        intro k hk
        exact hinv k (Finset.mem_of_mem_erase hk)
      · rw [if_neg hs] at hok
        cases hok
        exact hinv
  · rw [if_neg h32] at hok
    cases hc : checkPrefLen hl st with
    | none => rw [hc] at hok; cases hok
    | some st1 =>
      rw [hc] at hok
      dsimp only [] at hok
      have hfh := (checkPrefLen_fullHashes hc).1
      by_cases ha : ct = aType
      · rw [if_pos ha] at hok
        cases hok
        exact fun k hk => hinv k (hfh ▸ hk)
      · rw [if_neg ha] at hok
        by_cases hs : ct = sType
        · rw [if_pos hs] at hok
          by_cases hall : ∀ k ∈ st1.fullHashes, (host ++ h).length ≤ k.length
          · rw [if_pos hall] at hok
            cases hok
            intro k hk
            exact hinv k (hfh ▸ Finset.mem_of_mem_filter k hk)
          · rw [if_neg hall] at hok
            cases hok
        · rw [if_neg hs] at hok
          cases hok
          exact fun k hk => hinv k (hfh ▸ hk)

/-- Establishment: a SUB entry of a non-full-length hash `p` under `host`
leaves no `FullHashes` key beginning with `host ++ p` (the in-transaction
sweep of `updateLookupMap`, safebrowsinglist.go lines 276–282). -/
theorem updateEntry_estab {hl : Int} {st st' : LState} {host p : Key}
    (hok : updateEntry sType hl st host p = .ok st')
    (hp : ¬ p.length = 32) :
    noKeyPrefixed st'.fullHashes (host ++ p) := by
  unfold updateEntry at hok
  rw [if_neg hp] at hok
  cases hc : checkPrefLen hl st with
  | none => rw [hc] at hok; cases hok
  | some st1 =>
    rw [hc] at hok
    dsimp only [] at hok
    rw [if_neg sType_ne_aType, if_pos rfl] at hok
    by_cases hall : ∀ k ∈ st1.fullHashes, (host ++ p).length ≤ k.length
    · rw [if_pos hall] at hok
      cases hok
      intro k hk
      exact (Finset.mem_filter.mp hk).2
    · rw [if_neg hall] at hok
      cases hok


theorem applyHashList_pres {ct : List Nat} {hl : Int} {host pre : Key}
    {st st' : LState} {l : List Key}
    (hok : applyHashList ct hl host st l = .ok st')
    (hinv : noKeyPrefixed st.fullHashes pre)
    (hadd : ct = aType → ∀ h ∈ l, h.length = 32 →
      (host ++ h).take pre.length ≠ pre) :
    noKeyPrefixed st'.fullHashes pre := by
  induction l generalizing st with
  | nil =>
    simp only [applyHashList] at hok
    cases hok
    exact hinv
  | cons h rest ih =>
    simp only [applyHashList] at hok
    cases hue : updateEntry ct hl st host h with
    | error e => rw [hue] at hok; cases hok
    | ok st1 =>
      rw [hue] at hok
      exact ih hok
        (updateEntry_pres hue hinv
          (fun ha h32 => hadd ha h (List.mem_cons_self h rest) h32))
        (fun ha h' hm h32 => hadd ha h' (List.mem_cons_of_mem _ hm) h32)

theorem applyHashList_append {ct : List Nat} {hl : Int} {host : Key}
    {st : LState} (l1 l2 : List Key) :
    applyHashList ct hl host st (l1 ++ l2) =
      match applyHashList ct hl host st l1 with
      | .error e => .error e
      | .ok st1 => applyHashList ct hl host st1 l2 := by
  induction l1 generalizing st with
  | nil => simp [applyHashList]
  | cons h l1 ih =>
    simp only [List.cons_append, applyHashList]
    cases hue : updateEntry ct hl st host h with
    | error e => rfl
    | ok st1 => exact ih

theorem applyHashList_estab {hl : Int} {host p : Key} {st st' : LState}
    {l1 l2 : List Key}
    (hok : applyHashList sType hl host st (l1 ++ p :: l2) = .ok st')
    (hp : ¬ p.length = 32) :
    noKeyPrefixed st'.fullHashes (host ++ p) := by
  rw [applyHashList_append] at hok
  cases h1 : applyHashList sType hl host st l1 with
  | error e => rw [h1] at hok; cases hok
  | ok stA =>
    rw [h1] at hok
    dsimp only [] at hok
    simp only [applyHashList] at hok
    cases h2 : updateEntry sType hl stA host p with
    | error e => rw [h2] at hok; cases hok
    | ok stB =>
      rw [h2] at hok
      exact applyHashList_pres hok (updateEntry_estab h2 hp)
        (fun ha => absurd ha sType_ne_aType)

theorem applyHosts_pres {ct : List Nat} {hl : Int} {pre : Key}
    {st st' : LState} {hs : List (Key × List Key)}
    (hok : applyHosts ct hl st hs = .ok st')
    (hinv : noKeyPrefixed st.fullHashes pre)
    (hadd : ct = aType → ∀ e ∈ hs, ∀ h ∈ e.2, h.length = 32 →
      (e.1 ++ h).take pre.length ≠ pre) :
    noKeyPrefixed st'.fullHashes pre := by
  induction hs generalizing st with
  | nil => simp only [applyHosts] at hok; cases hok; exact hinv
  | cons e rest ih =>
    simp only [applyHosts] at hok
    cases h1 : applyHashList ct hl e.1 st e.2 with
    | error er => rw [h1] at hok; cases hok
    | ok st1 =>
      rw [h1] at hok
      exact ih hok
        (applyHashList_pres h1 hinv
          (fun ha h hm h32 => hadd ha e (List.mem_cons_self e rest) h hm h32))
        (fun ha e' hm h hm' h32 =>
          hadd ha e' (List.mem_cons_of_mem _ hm) h hm' h32)

theorem applyHosts_append {ct : List Nat} {hl : Int} {st : LState}
    (l1 l2 : List (Key × List Key)) :
    applyHosts ct hl st (l1 ++ l2) =
      match applyHosts ct hl st l1 with
      | .error e => .error e
      | .ok st1 => applyHosts ct hl st1 l2 := by
  induction l1 generalizing st with
  | nil => simp [applyHosts]
  | cons e l1 ih =>
    simp only [List.cons_append, applyHosts]
    cases h1 : applyHashList ct hl e.1 st e.2 with
    | error er => rfl
    | ok st1 => exact ih

theorem applyHosts_estab {hl : Int} {p host : Key} {st st' : LState}
    {l1 l2 : List (Key × List Key)} {hsl : List Key}
    (hok : applyHosts sType hl st (l1 ++ (host, hsl) :: l2) = .ok st')
    (hpm : p ∈ hsl) (hp : ¬ p.length = 32) :
    noKeyPrefixed st'.fullHashes (host ++ p) := by
  rw [applyHosts_append] at hok
  cases h1 : applyHosts sType hl st l1 with
  | error e => rw [h1] at hok; cases hok
  | ok stA =>
    rw [h1] at hok
    dsimp only [] at hok
    simp only [applyHosts] at hok
    cases h2 : applyHashList sType hl host stA hsl with
    | error e => rw [h2] at hok; cases hok
    | ok stB =>
      rw [h2] at hok
      obtain ⟨m1, m2, heq⟩ := List.append_of_mem hpm
      rw [heq] at h2
      exact applyHosts_pres hok (applyHashList_estab h2 hp)
        (fun ha => absurd ha sType_ne_aType)

theorem updateLookupMap_pres {st st' : LState} {c : GChunk} {pre : Key}
    (hok : updateLookupMap st c = .ok st')
    (hinv : noKeyPrefixed st.fullHashes pre)
    (hadd : c.chunkType = aType → ∀ e ∈ c.hashes, ∀ h ∈ e.2, h.length = 32 →
      (e.1 ++ h).take pre.length ≠ pre) :
    noKeyPrefixed st'.fullHashes pre :=
  applyHosts_pres hok hinv hadd

theorem updateLookupMap_estab {st st' : LState} {c : GChunk} {host p : Key}
    {hsl : List Key}
    (hok : updateLookupMap st c = .ok st') (hct : c.chunkType = sType)
    (hmem : (host, hsl) ∈ c.hashes) (hpm : p ∈ hsl) (hp : ¬ p.length = 32) :
    noKeyPrefixed st'.fullHashes (host ++ p) := by
  unfold updateLookupMap at hok
  rw [hct] at hok
  obtain ⟨m1, m2, heq⟩ := List.append_of_mem hmem
  rw [heq] at hok
  exact applyHosts_estab hok hpm hp

theorem processChunk_pres {del : List (Key × Finset Nat)} {acc acc' : PCAcc}
    {c : GChunk} {pre : Key}
    (hok : processChunk del acc c = .ok acc')
    (hinv : noKeyPrefixed acc.st.fullHashes pre)
    (hadd : c.chunkType = aType → ∀ e ∈ c.hashes, ∀ h ∈ e.2, h.length = 32 →
      (e.1 ++ h).take pre.length ≠ pre) :
    noKeyPrefixed acc'.st.fullHashes pre := by
  unfold processChunk at hok
  by_cases hskip : c.chunkNum ∈ lookupDel del c.chunkType
  · rw [if_pos hskip] at hok; cases hok; exact hinv
  · rw [if_neg hskip] at hok
    cases hu : updateLookupMap acc.st c with
    | error e => rw [hu] at hok; cases hok
    | ok st1 =>
      rw [hu] at hok
      cases hok
      exact updateLookupMap_pres hu hinv hadd

theorem processChunks_pres {del : List (Key × Finset Nat)} {acc acc' : PCAcc}
    {cs : List GChunk} {pre : Key}
    (hok : processChunks del acc cs = .ok acc')
    (hinv : noKeyPrefixed acc.st.fullHashes pre)
    (hadds : noFullAdds cs pre) :
    noKeyPrefixed acc'.st.fullHashes pre := by
  induction cs generalizing acc with
  | nil => simp only [processChunks] at hok; cases hok; exact hinv
  | cons c rest ih =>
    simp only [processChunks] at hok
    cases h1 : processChunk del acc c with
    | error e => rw [h1] at hok; cases hok
    | ok acc1 =>
      rw [h1] at hok
      refine ih hok (processChunk_pres h1 hinv ?_) ?_
      · exact hadds c (List.mem_cons_self c rest)
      · exact fun c' hc' => hadds c' (List.mem_cons_of_mem _ hc')

theorem processChunks_append {del : List (Key × Finset Nat)} {acc : PCAcc}
    (l1 l2 : List GChunk) :
    processChunks del acc (l1 ++ l2) =
      match processChunks del acc l1 with
      | .error e => .error e
      | .ok acc1 => processChunks del acc1 l2 := by
  induction l1 generalizing acc with
  | nil => simp [processChunks]
  | cons c l1 ih =>
    simp only [List.cons_append, processChunks]
    cases h1 : processChunk del acc c with
    | error e => rfl
    | ok acc1 => exact ih

theorem processChunks_estab {del : List (Key × Finset Nat)}
    {acc acc' : PCAcc} {l1 l2 : List GChunk} {c : GChunk} {host p : Key}
    {hsl : List Key}
    (hok : processChunks del acc (l1 ++ c :: l2) = .ok acc')
    (hct : c.chunkType = sType)
    (hnd : c.chunkNum ∉ lookupDel del sType)
    (hmem : (host, hsl) ∈ c.hashes) (hpm : p ∈ hsl) (hp : ¬ p.length = 32)
    (hpost : noFullAdds l2 (host ++ p)) :
    noKeyPrefixed acc'.st.fullHashes (host ++ p) := by
  rw [processChunks_append] at hok
  cases h1 : processChunks del acc l1 with
  | error e => rw [h1] at hok; cases hok
  | ok accA =>
    rw [h1] at hok
    dsimp only [] at hok
    simp only [processChunks] at hok
    cases h2 : processChunk del accA c with
    | error e => rw [h2] at hok; cases hok
    | ok accB =>
      rw [h2] at hok
      have hB : noKeyPrefixed accB.st.fullHashes (host ++ p) := by
        unfold processChunk at h2
        rw [if_neg (by rw [hct]; exact hnd)] at h2
        cases hu : updateLookupMap accA.st c with
        | error e => rw [hu] at h2; cases h2
        | ok st1 =>
          rw [hu] at h2
          cases h2
          exact updateLookupMap_estab hu hct hmem hpm hp
      exact processChunks_pres hok hB hpost

/-- A successful `load` is exactly a `processChunks` run over the decoded
journal (when the file existed) followed by the new chunks. -/
theorem load_ok_chunks {st0 : LState} {del : List (Key × Finset Nat)}
    {fe : Bool} {journal : List GChunk} {jend : JEnd}
    {newChunks : List GChunk} {st' : LState} {d : List (Key × Finset Nat)}
    {ar sr : List (Nat × Nat)} {tmp : List GChunk}
    (hok : load st0 del fe journal jend newChunks = .ok st' d ar sr tmp) :
    ∃ acc2 : PCAcc,
      processChunks del ⟨st0, [], [], []⟩
          ((if fe then journal else []) ++ newChunks) = .ok acc2 ∧
      acc2.st = st' ∧ acc2.tmp = tmp ∧ d = [] ∧
      ar = buildChunkRanges acc2.addIdx ∧
      sr = buildChunkRanges acc2.subIdx := by
  cases fe with
  | false =>
    unfold load at hok
    cases h1 : processChunks del ⟨st0, [], [], []⟩ newChunks with
    | error e => rw [h1] at hok; cases hok
    | ok acc2 =>
      rw [h1] at hok
      cases hok
      exact ⟨acc2, by simpa using h1, rfl, rfl, rfl, rfl, rfl⟩
  | true =>
    unfold load at hok
    cases h1 : processChunks del ⟨st0, [], [], []⟩ journal with
    | error e => rw [h1] at hok; cases hok
    | ok acc1 =>
      rw [h1] at hok
      cases jend with
      | derr => dsimp only [] at hok; cases hok
      | eof =>
        dsimp only [] at hok
        cases h2 : processChunks del acc1 newChunks with
        | error e => rw [h2] at hok; cases hok
        | ok acc2 =>
          rw [h2] at hok
          cases hok
          refine ⟨acc2, ?_, rfl, rfl, rfl, rfl, rfl⟩
          rw [if_pos rfl, processChunks_append, h1]
          exact h2


theorem processChunks_del {del : List (Key × Finset Nat)} {acc acc' : PCAcc}
    {cs : List GChunk} {kind : List Nat} {n : Nat}
    (hmem : n ∈ lookupDel del kind)
    (hok : processChunks del acc cs = .ok acc')
    (htmp : ∀ c ∈ acc.tmp, c.chunkType = kind → c.chunkNum ≠ n)
    (hai : kind = aType → n ∉ acc.addIdx)
    (hsi : kind = sType → n ∉ acc.subIdx) :
    (∀ c ∈ acc'.tmp, c.chunkType = kind → c.chunkNum ≠ n) ∧
    (kind = aType → n ∉ acc'.addIdx) ∧ (kind = sType → n ∉ acc'.subIdx) := by
  induction cs generalizing acc with
  | nil =>
    simp only [processChunks] at hok
    cases hok
    exact ⟨htmp, hai, hsi⟩
  | cons c rest ih =>
    simp only [processChunks] at hok
    cases h1 : processChunk del acc c with
    | error e => rw [h1] at hok; cases hok
    | ok acc1 =>
      rw [h1] at hok
      unfold processChunk at h1
      by_cases hskip : c.chunkNum ∈ lookupDel del c.chunkType
      · rw [if_pos hskip] at h1
        cases h1
        exact ih hok htmp hai hsi
      · rw [if_neg hskip] at h1
        cases hu : updateLookupMap acc.st c with
        | error e => rw [hu] at h1; cases h1
        | ok st1 =>
          rw [hu] at h1
          cases h1
          have hcn : c.chunkType = kind → c.chunkNum ≠ n := by
            intro hk he
            exact hskip (by rw [hk, he]; exact hmem)
          refine ih hok ?_ ?_ ?_
          · intro c' hc' hk
            rcases List.mem_append.mp hc' with h2 | h2
            · exact htmp c' h2 hk
            · rw [List.mem_singleton.mp h2] at hk ⊢
              exact hcn hk
          · intro hk
            show n ∉ (if c.chunkType = aType then insertOnce acc.addIdx c.chunkNum
                      else acc.addIdx)
            by_cases hct : c.chunkType = aType
            · rw [if_pos hct]
              intro hmem2
              rcases (insertOnce_mem n acc.addIdx c.chunkNum).mp hmem2 with h2 | h2
              · exact hai hk h2
              · exact hcn (hct.trans hk.symm) h2.symm
            · rw [if_neg hct]
              exact hai hk
          · intro hk
            show n ∉ (if c.chunkType = sType then insertOnce acc.subIdx c.chunkNum
                      else acc.subIdx)
            by_cases hct : c.chunkType = sType
            · rw [if_pos hct]
              intro hmem2
              rcases (insertOnce_mem n acc.subIdx c.chunkNum).mp hmem2 with h2 | h2
              · exact hsi hk h2
              · exact hcn (hct.trans hk.symm) h2.symm
            · rw [if_neg hct]
              exact hsi hk

/-- C3: for every `(kind, n)` present in `DeleteChunks` before `load`,
after `load` returns successfully the rewritten journal contains no chunk
of that chunk type and chunk number, the emitted `ChunkRanges[kind]`
omits `n` (no run of the rebuilt range expression covers `n`), and
`DeleteChunks` is reset to the empty map (safebrowsinglist.go lines
120–124, 152–155, 191–195). -/
theorem c3_delete_chunks {st0 : LState} {del : List (Key × Finset Nat)}
    {fe : Bool} {journal : List GChunk} {jend : JEnd}
    {newChunks : List GChunk} {st' : LState} {d : List (Key × Finset Nat)}
    {ar sr : List (Nat × Nat)} {tmp : List GChunk} {kind : List Nat} {n : Nat}
    (hmem : n ∈ lookupDel del kind)
    (hok : load st0 del fe journal jend newChunks = .ok st' d ar sr tmp) :
    (∀ c ∈ tmp, c.chunkType = kind → c.chunkNum ≠ n) ∧
    (kind = aType → ¬ covered n ar) ∧
    (kind = sType → ¬ covered n sr) ∧ d = [] := by
  obtain ⟨acc2, hpc, hst, htmp, hd, har, hsr⟩ := load_ok_chunks hok
  obtain ⟨h1, h2, h3⟩ :=
    processChunks_del hmem hpc (fun c hc => absurd hc (List.not_mem_nil c))
      (fun _ => List.not_mem_nil n) (fun _ => List.not_mem_nil n)
  refine ⟨htmp ▸ h1, ?_, ?_, hd⟩
  · intro hk hcov
    rw [har] at hcov
    exact h2 hk ((buildChunkRanges_covered _ n).mp hcov)
  · intro hk hcov
    rw [hsr] at hcov
    exact h3 hk ((buildChunkRanges_covered _ n).mp hcov)

/-- C3 witness: `DeleteChunks = {a ↦ {1}}`, journal `[addChunk1]` (ADD #1,
dropped), new chunk `addChunk2` (ADD #2, kept). -/
theorem c3_delete_chunks_witness :
    (1 : Nat) ∈ lookupDel [(aType, {1})] aType ∧
    ((∀ c ∈ [addChunk2], c.chunkType = aType → c.chunkNum ≠ 1) ∧
     (aType = aType → ¬ covered 1 [(2, 2)]) ∧
     (aType = sType → ¬ covered 1 []) ∧
     ([] : List (Key × Finset Nat)) = []) :=
  ⟨by decide,
    c3_delete_chunks
      (show (1 : Nat) ∈ lookupDel [(aType, {1})] aType from by decide)
      (show load ⟨∅, ∅, 0⟩ [(aType, {1})] true [addChunk1] .eof [addChunk2] =
          .ok ⟨∅, {[1, 2, 3, 4] ++ fullA}, 0⟩ [] [(2, 2)] [] [addChunk2]
        from by decide)⟩

/-- C2, counterexample: one ADD chunk decodes before the journal decode
error; `load` returns the error without renaming, but the in-memory
index already holds the chunk's lookup key — the claim's "no partial
mutation of the in-memory lookup structures is observable" conjunct is
false for src/safebrowsinglist.go, which mutates the shared tries in
place while decoding. -/
theorem c2_counterexample :
    load ⟨∅, ∅, 0⟩ [] true [addChunk1] .derr [] =
      .failed ⟨{[1, 2, 3, 4, 5, 6, 7, 8]}, ∅, 4⟩ [addChunk1] ∧
    ([1, 2, 3, 4, 5, 6, 7, 8] : Key) ∈
      (⟨{[1, 2, 3, 4, 5, 6, 7, 8]}, ∅, 4⟩ : LState).lookup ∧
    ([1, 2, 3, 4, 5, 6, 7, 8] : Key) ∉ (⟨∅, ∅, 0⟩ : LState).lookup :=
  ⟨by decide, by decide, by decide⟩

/-- C2 (amended): when the journal decode ends in a non-EOF error, `load`
returns that error and the `.tmp` file is never renamed over the journal;
however the in-memory structures are NOT rolled back — the state after
the failed `load` is exactly the one produced by applying the chunks
decoded before the error. -/
theorem c2_amended {st0 : LState} {del : List (Key × Finset Nat)}
    {journal newChunks : List GChunk} {acc1 : PCAcc}
    (h : processChunks del ⟨st0, [], [], []⟩ journal = .ok acc1) :
    load st0 del true journal .derr newChunks = .failed acc1.st acc1.tmp ∧
    (load st0 del true journal .derr newChunks).renamed = false := by
  unfold load
  rw [h]
  exact ⟨rfl, rfl⟩

/-- C2 witness: the amended statement evaluated on a one-chunk journal. -/
theorem c2_amended_witness :
    load ⟨∅, ∅, 0⟩ [] true [addChunk1] .derr [] =
      .failed (⟨⟨{[1, 2, 3, 4, 5, 6, 7, 8]}, ∅, 4⟩, [1], [],
        [addChunk1]⟩ : PCAcc).st
        (⟨⟨{[1, 2, 3, 4, 5, 6, 7, 8]}, ∅, 4⟩, [1], [], [addChunk1]⟩ : PCAcc).tmp ∧
    (load ⟨∅, ∅, 0⟩ [] true [addChunk1] .derr []).renamed = false :=
  c2_amended (by decide)

/-- C1, counterexample: prefix `[5,6,7,8]` under host `[1,2,3,4]` is
subtracted by `subChunk1` during the load, with established prefix length
4 = len(p); yet after the load completes, `FullHashes` holds the 36-byte
key `[1,2,3,4] ++ fullA`, whose leading bytes are exactly h ∥ p, because
`addChunk2` is applied later in the same load — the claim's "after the
load completes there is no such key" is false. -/
theorem c1_counterexample :
    load ⟨∅, ∅, 0⟩ [] false [] .eof [subChunk1, addChunk2] =
      .ok ⟨∅, {[1, 2, 3, 4] ++ fullA}, 4⟩ [] [(2, 2)] [(1, 1)]
        [subChunk1, addChunk2] ∧
    ¬ noKeyPrefixed ({[1, 2, 3, 4] ++ fullA} : Finset Key)
        ([1, 2, 3, 4] ++ [5, 6, 7, 8]) :=
  ⟨by decide, by decide⟩

/-- C1 (amended): if a SUB chunk applied during the load (not marked for
deletion) subtracts a non-full-length prefix `p` under host `h`, and no
chunk applied AFTER it in the same load adds a full-length hash whose
lookup key begins with `h ∥ p`, then after the load completes no
`FullHashes` key begins with `h ∥ p`; the sweep happens in the same
transaction as the prefix deletion (safebrowsinglist.go lines 271–284). -/
theorem c1_amended {st0 : LState} {del : List (Key × Finset Nat)}
    {fe : Bool} {journal : List GChunk} {jend : JEnd}
    {newChunks : List GChunk} {st' : LState} {d : List (Key × Finset Nat)}
    {ar sr : List (Nat × Nat)} {tmp before after : List GChunk} {c : GChunk}
    {host p : Key} {hsl : List Key}
    (hok : load st0 del fe journal jend newChunks = .ok st' d ar sr tmp)
    (hsplit : (if fe then journal else []) ++ newChunks =
      before ++ c :: after)
    (hct : c.chunkType = sType)
    (hnd : c.chunkNum ∉ lookupDel del sType)
    (hmem : (host, hsl) ∈ c.hashes) (hpm : p ∈ hsl)
    (hp : ¬ p.length = 32)
    (hpost : noFullAdds after (host ++ p)) :
    noKeyPrefixed st'.fullHashes (host ++ p) := by
  obtain ⟨acc2, hpc, hst, -, -, -, -⟩ := load_ok_chunks hok
  rw [hsplit] at hpc
  exact hst ▸ processChunks_estab hpc hct hnd hmem hpm hp hpost

/-- C1 witness: the amended statement on a load whose initial state
already holds a full hash with the subtracted prefix; the subtraction
removes it. -/
theorem c1_amended_witness :
    noKeyPrefixed (⟨∅, ∅, 4⟩ : LState).fullHashes
      ([1, 2, 3, 4] ++ [5, 6, 7, 8]) :=
  c1_amended
    (show load ⟨∅, {[1, 2, 3, 4] ++ fullA}, 0⟩ [] false [] .eof [subChunk1] =
        .ok ⟨∅, ∅, 4⟩ [] [] [(1, 1)] [subChunk1] from by decide)
    (show (if false then ([] : List GChunk) else []) ++ [subChunk1] =
        [] ++ subChunk1 :: [] from rfl)
    (show subChunk1.chunkType = sType from by decide)
    (show subChunk1.chunkNum ∉ lookupDel [] sType from by decide)
    (show ([1, 2, 3, 4], [[5, 6, 7, 8]]) ∈ subChunk1.hashes from by decide)
    (show ([5, 6, 7, 8] : Key) ∈ [[5, 6, 7, 8]] from by decide)
    (show ¬ ([5, 6, 7, 8] : Key).length = 32 from by decide)
    (show noFullAdds [] ([1, 2, 3, 4] ++ [5, 6, 7, 8]) from by decide)


/-- C6, counterexample: on the literal scenario-4 input,
`processRedirectList` (a) stores `"http://cache.example/first"`, not the
claimed `"https://..."` (line 275 prepends `"http://"`), and (b) leaves
every section's `DeleteChunks` empty — `phish.DeleteChunks[SUB] = ∅`, not
`{1,2}`, and `malware.DeleteChunks[ADD] = ∅`, not `{1,2,4,5,7}` — because
closing a section overwrites the list's `DeleteChunks` with the
function-level `currentDeletes`, whose intended per-section reset only
creates a dead shadow variable (line 271). -/
theorem c6_counterexample :
    processRedirectList scenario4Init scenario4Lines =
      .done ⟨1200,
        [("phish".data,
          ⟨["http://cache.example/first".data,
            "http://cache.example/first_1".data], initDeletes⟩),
         ("malware".data,
          ⟨["http://cache.example/second".data], initDeletes⟩)]⟩ ∧
    lookupDel initDeletes sType ≠ ({1, 2} : Finset Nat) ∧
    lookupDel initDeletes aType ≠ ({1, 2, 4, 5, 7} : Finset Nat) ∧
    ("http://cache.example/first".data ≠ "https://cache.example/first".data) :=
  ⟨by decide, by decide, by decide, by decide⟩

/-- C6 (amended): processing the redirect stream sets `UpdateDelay` from
every `n:` line and appends `"http://"` (not `"https://"`) plus the URL
to the current section's redirect list, stored into the list at section
close; `ad:`/`sd:` lines populate the list's `DeleteChunks` when parsed,
but each section close — including the final one at end of input —
overwrites that list's `DeleteChunks` with the never-repopulated
function-level `currentDeletes` (the per-section reset shadows it), so
after processing the literal scenario-4 input both lists' ADD and SUB
delete sets are empty. -/
theorem c6_amended :
    processRedirectList scenario4Init scenario4Lines =
      .done ⟨1200,
        [("phish".data,
          ⟨["http://cache.example/first".data,
            "http://cache.example/first_1".data], initDeletes⟩),
         ("malware".data,
          ⟨["http://cache.example/second".data], initDeletes⟩)]⟩ ∧
    lookupDel initDeletes aType = (∅ : Finset Nat) ∧
    lookupDel initDeletes sType = (∅ : Finset Nat) :=
  ⟨by decide, by decide, by decide⟩

/-- C10: refuted by the code — `doFullHashBackOffRequest` executes
`response.StatusCode = 503` on the just-declared nil `*http.Response`
before its first sleep/re-request iteration, so every call panics with a
nil-pointer dereference; the claimed panic-free first backoff iteration
never executes. -/
theorem c10_nil_deref (url body : List Char) :
    doFullHashBackOffRequest url body = .nilDereference := rfl


/-! ### Lemmas about the lookup pipeline -/

theorem applyOutcome_err_ne_stale (ls1 : List (String × L4))
    (req : String × List Key) (o : Option (List (String × L4))) :
    (applyOutcome ls1 req o).err ≠ some .stale := by
  cases o <;> simp [applyOutcome]

theorem requestFullHashes_err_ne_stale (ls : List (String × L4)) (n : String)
    (ps : List Key) (tr : FHTransport) :
    (requestFullHashes ls n ps tr).err ≠ some .stale := by
  unfold requestFullHashes
  repeat' split
  all_goals first
    | exact applyOutcome_err_ne_stale _ _ _
    | simp

theorem queryLoop_no_stale {mFH off : Bool} {cands : List Key}
    {tr : String → List Key → FHTransport} :
    ∀ {names : List String} {ls ls' : List (String × L4)}
      {issued issued' : List (String × List Key)} {out? : Option QOut},
    queryLoop mFH off cands tr ls names issued = (ls', issued', out?) →
    out? ≠ some (.qerr .stale) := by
  intro names
  induction names with
  | nil =>
    intro ls ls' issued issued' out? h
    simp only [queryLoop] at h
    cases h
    simp
  | cons name names ih =>
    intro ls ls' issued issued' out? h
    unfold queryLoop at h
    cases hl : lookupL4 ls name with
    | none => rw [hl] at h; exact ih h
    | some l4 =>
      rw [hl] at h
      dsimp only [] at h
      rcases hs : scanCandidates mFH off l4 [] cands with ⟨l4a, keys, r⟩
      rw [hs] at h
      cases r with
      | some b => cases h; simp
      | none =>
        dsimp only [] at h
        by_cases hk : keys.isEmpty
        · rw [if_pos hk] at h; exact ih h
        · rw [if_neg hk] at h
          cases he : (requestFullHashes (setL4 ls name l4a) name keys
              (tr name keys)).err with
          | some e =>
            rw [he] at h
            cases h
            have := requestFullHashes_err_ne_stale (setL4 ls name l4a) name keys
              (tr name keys)
            rw [he] at this
            intro hcon
            apply this
            injection hcon with hcon2
            injection hcon2 with hcon3
            rw [hcon3]
          | none =>
            rw [he] at h
            cases hl2 : lookupL4 (requestFullHashes (setL4 ls name l4a) name keys
                (tr name keys)).lists name with
            | none => rw [hl2] at h; exact ih h
            | some l4r =>
              rw [hl2] at h
              dsimp only [] at h
              by_cases hany : cands.any (fun u => decide (u ∈ l4r.fullHashes)) = true
              · rw [if_pos hany] at h; cases h; simp
              · simp only [hany, Bool.false_eq_true, if_false] at h
                exact ih h

/-- With `matchFullHash = false` a prefix hit returns before any key is
added to `keysToLookupMap`. -/
theorem scanCandidates_false_acc (off : Bool) :
    ∀ (cands : List Key) (l4 : L4) (acc : List Key),
    (scanCandidates false off l4 acc cands).2.1 = acc := by
  intro cands
  induction cands with
  | nil => intro l4 acc; rfl
  | cons u rest ih =>
    intro l4 acc
    unfold scanCandidates
    by_cases h1 : u ∈ (evict l4 u).fullHashes
    · simp [h1]
    · simp only [h1, if_false]
      by_cases h2 : u.take 4 ∈ (evict l4 u).lookup
      · simp [h2, ih]
      · simp [h2, ih]

/-- With `matchFullHash = false`, `queryLoop` is independent of the
transport, issues nothing, and never errors. -/
theorem queryLoop_false (off : Bool) (cands : List Key)
    (tr tr' : String → List Key → FHTransport) :
    ∀ (names : List String) (ls : List (String × L4))
      (issued : List (String × List Key)),
    queryLoop false off cands tr ls names issued =
      queryLoop false off cands tr' ls names issued ∧
    (queryLoop false off cands tr ls names issued).2.1 = issued ∧
    ∀ e, (queryLoop false off cands tr ls names issued).2.2 ≠
      some (.qerr e) := by
  intro names
  induction names with
  | nil =>
    intro ls issued
    refine ⟨rfl, rfl, ?_⟩
    intro e
    simp [queryLoop]
  | cons name names ih =>
    intro ls issued
    unfold queryLoop
    cases hl : lookupL4 ls name with
    | none => exact ih ls issued
    | some l4 =>
      dsimp only []
      rcases hs : scanCandidates false off l4 [] cands with ⟨l4a, keys, r⟩
      have hkeys : keys = [] := by
        have h2 := scanCandidates_false_acc off cands l4 []
        rw [hs] at h2
        exact h2
      cases r with
      | some b => exact ⟨rfl, rfl, fun e => by simp⟩
      | none =>
        subst hkeys
        simp only [List.isEmpty_nil, if_true]
        exact ih (setL4 ls name l4a) issued

/-- C4, counterexample: with `OfflineMode` set and an update 0 seconds
ago (well under 45 minutes), `queryUrl(url, true)` — `IsListed` — still
fails with the stale-lists error, because `IsUpToDate` is false whenever
`OfflineMode` is set (part_004 line 159); the claim says the failure
happens exactly when the update is at least 45 minutes old AND the
client is not offline. -/
theorem c4_counterexample :
    (queryUrl ⟨[("l", l4Ex)], true, 0⟩ [] true trErr).out = .qerr .stale ∧
    (⟨[("l", l4Ex)], true, 0⟩ : SB4).sinceUpdateSec < 2700 ∧
    (⟨[("l", l4Ex)], true, 0⟩ : SB4).offline = true :=
  ⟨by decide, by decide, by decide⟩

/-- C4 (amended): `queryUrl(url, true)` (hence `IsListed`) fails with the
stale-lists error exactly when the client is in offline mode OR at least
45 minutes passed since the last successful update; `queryUrl(url,
false)` (`MightBeListed`) never fails — for staleness or anything else —
issues no gethash request, and answers identically under every
transport, i.e. from the local index alone. -/
theorem c4_amended :
    (∀ (sb : SB4) (cands : List Key) (tr : String → List Key → FHTransport),
      ((IsListed sb cands tr).out = .qerr .stale ↔
        (sb.offline = true ∨ 2700 ≤ sb.sinceUpdateSec))) ∧
    (∀ (sb : SB4) (cands : List Key) (tr tr' : String → List Key → FHTransport),
      MightBeListed sb cands tr = MightBeListed sb cands tr') ∧
    (∀ (sb : SB4) (cands : List Key) (tr : String → List Key → FHTransport)
        (e : QErr), (MightBeListed sb cands tr).out ≠ .qerr e) ∧
    (∀ (sb : SB4) (cands : List Key) (tr : String → List Key → FHTransport),
      (MightBeListed sb cands tr).issued = []) := by
  refine ⟨?_, ?_, ?_, ?_⟩
  · intro sb cands tr
    unfold IsListed queryUrl
    by_cases hup : IsUpToDate sb = true
    · rw [show (true && !(IsUpToDate sb)) = false by simp [hup]]
      simp only [Bool.false_eq_true, if_false]
      constructor
      · intro h
        exfalso
        rcases hq : queryLoop true sb.offline cands tr sb.lists
            (sb.lists.map (·.1)) [] with ⟨ls, issued, out?⟩
        rw [hq] at h
        dsimp only [] at h
        cases out? with
        | none => simp at h
        | some o =>
          simp only [Option.getD_some] at h
          exact queryLoop_no_stale hq (h ▸ rfl)
      · intro h
        exfalso
        unfold IsUpToDate at hup
        simp only [Bool.and_eq_true, Bool.not_eq_true', decide_eq_true_eq] at hup
        rcases hup with ⟨h1, h2⟩
        rcases h with h | h
        · rw [h] at h1; cases h1
        · omega
    · rw [show (true && !(IsUpToDate sb)) = true by simp [hup]]
      simp only [if_true]
      constructor
      · intro _
        unfold IsUpToDate at hup
        simp only [Bool.and_eq_true, Bool.not_eq_true', decide_eq_true_eq,
          not_and] at hup
        by_cases ho : sb.offline = true
        · exact Or.inl ho
        · right
          have := hup (by simp [Bool.not_eq_true] at ho ⊢; exact ho)
          omega
      · intro _; trivial
  · intro sb cands tr tr'
    unfold MightBeListed queryUrl
    simp only [Bool.false_and, Bool.false_eq_true, if_false]
    rw [(queryLoop_false sb.offline cands tr tr' (sb.lists.map (·.1)) sb.lists []).1]
  · intro sb cands tr e
    unfold MightBeListed queryUrl
    simp only [Bool.false_and, Bool.false_eq_true, if_false]
    have hno := (queryLoop_false sb.offline cands tr tr
      (sb.lists.map (·.1)) sb.lists []).2.2
    rcases hq : queryLoop false sb.offline cands tr sb.lists
        (sb.lists.map (·.1)) [] with ⟨ls, issued, out?⟩
    rw [hq] at hno
    rw [hq]
    dsimp only []
    cases out? with
    | none => simp
    | some o =>
      simp only [Option.getD_some]
      intro hcon
      exact hno e (by rw [hcon])
  · intro sb cands tr
    unfold MightBeListed queryUrl
    simp only [Bool.false_and, Bool.false_eq_true, if_false]
    have hiss := (queryLoop_false sb.offline cands tr tr
      (sb.lists.map (·.1)) sb.lists []).2.1
    rcases hq : queryLoop false sb.offline cands tr sb.lists
        (sb.lists.map (·.1)) [] with ⟨ls, issued, out?⟩
    rw [hq] at hiss
    rw [hq]
    dsimp only []
    exact hiss


/-- C5, counterexample: `requestFullHashes` marks prefixes only AFTER
`sb.request` returns (part_004 line 202 vs 209), so a transport error
leaves them unmarked and a second `queryUrl` call issues a second
gethash request for the same (list, prefix): the claim's "at most one
request ever per (list name, prefix) per session" and "marks every
requested prefix before awaiting the response" are both false. -/
theorem c5_counterexample :
    (session sb4Ex [stepErrEx, stepErrEx]).2 =
      [("l", [[1, 2, 3, 4]]), ("l", [[1, 2, 3, 4]])] ∧
    countP (session sb4Ex [stepErrEx, stepErrEx]).2 "l" [1, 2, 3, 4] = 2 ∧
    (queryUrl sb4Ex [candEx] true trErr).issued = [("l", [[1, 2, 3, 4]])] ∧
    marked (queryUrl sb4Ex [candEx] true trErr).sb.lists "l" = ∅ :=
  ⟨by decide, by decide, by decide, by decide⟩

theorem insertOnceKey_mem (p : Key) (l : List Key) (k : Key) :
    p ∈ insertOnceKey l k ↔ p ∈ l ∨ p = k := by
  unfold insertOnceKey
  by_cases h : k ∈ l
  · rw [if_pos h]
    constructor
    · exact Or.inl
    · rintro (h1 | h1)
      · exact h1
      · exact h1 ▸ h
  · rw [if_neg h]
    simp

theorem cacheFind_mem {c : List (Key × Nat × Nat)} {h : Key} {v : Nat × Nat}
    (hf : cacheFind c h = some v) : ∃ e ∈ c, e.2 = v := by
  unfold cacheFind at hf
  cases hfe : c.find? (fun e => e.1 = h) with
  | none => rw [hfe] at hf; cases hf
  | some e =>
    rw [hfe] at hf
    refine ⟨e, List.mem_of_find?_eq_some hfe, ?_⟩
    simp only [Option.map_some'] at hf
    injection hf

theorem evict_id {l4 : L4} (hv : ∀ ce ∈ l4.cache, ce.2.1 < ce.2.2) (u : Key) :
    evict l4 u = l4 := by
  unfold evict
  cases hf : cacheFind l4.cache u with
  | none => rfl
  | some v =>
    rcases v with ⟨el, lt⟩
    obtain ⟨e, he, hev⟩ := cacheFind_mem hf
    have hvalid := hv e he
    rw [hev] at hvalid
    dsimp only [] at hvalid ⊢
    rw [if_neg (not_not_intro (by simpa [checkValidity] using hvalid))]

theorem scanCandidates_valid {mFH off : Bool} {l4 : L4}
    (hv : ∀ ce ∈ l4.cache, ce.2.1 < ce.2.2) :
    ∀ (cands acc : List Key),
    (scanCandidates mFH off l4 acc cands).1 = l4 ∧
    (∀ p ∈ (scanCandidates mFH off l4 acc cands).2.1,
      p ∈ acc ∨ p ∉ l4.fullHashRequested) := by
  intro cands
  induction cands with
  | nil => intro acc; exact ⟨rfl, fun p hp => Or.inl hp⟩
  | cons u rest ih =>
    intro acc
    unfold scanCandidates
    rw [evict_id hv u]
    by_cases h1 : u ∈ l4.fullHashes
    · rw [if_pos h1]
      exact ⟨rfl, fun p hp => Or.inl hp⟩
    · rw [if_neg h1]
      by_cases h2 : u.take 4 ∈ l4.lookup
      · rw [if_pos h2]
        by_cases h3 : (!mFH || off) = true
        · rw [if_pos h3]
          exact ⟨rfl, fun p hp => Or.inl hp⟩
        · rw [if_neg h3]
          by_cases h4 : u.take 4 ∈ l4.fullHashRequested
          · rw [if_pos h4]; exact ih acc
          · rw [if_neg h4]
            obtain ⟨ha, hb⟩ := ih (insertOnceKey acc (u.take 4))
            refine ⟨ha, ?_⟩
            intro p hp
            rcases hb p hp with hc | hc
            · rcases (insertOnceKey_mem p acc (u.take 4)).mp hc with hd | hd
              · exact Or.inl hd
              · exact Or.inr (hd ▸ h4)
            · exact Or.inr hc
      · rw [if_neg h2]; exact ih acc

theorem lookupL4_valid {ls : List (String × L4)} {n : String} {l4 : L4}
    (hvc : validCachesL ls) (hl : lookupL4 ls n = some l4) :
    ∀ ce ∈ l4.cache, ce.2.1 < ce.2.2 := by
  unfold lookupL4 at hl
  cases hfe : ls.find? (fun e => e.1 = n) with
  | none => rw [hfe] at hl; cases hl
  | some e =>
    rw [hfe] at hl
    simp only [Option.map_some'] at hl
    injection hl with h2
    intro ce hce
    exact hvc e (List.mem_of_find?_eq_some hfe) ce (by rw [h2]; exact hce)

theorem setL4_self : ∀ {ls : List (String × L4)} {n : String} {l4 : L4},
    lookupL4 ls n = some l4 → setL4 ls n l4 = ls := by
  intro ls
  induction ls with
  | nil => intro n l4 h; cases h
  | cons e rest ih =>
    intro n l4 h
    rcases e with ⟨na, la⟩
    unfold lookupL4 at h
    by_cases he : na = n
    · rw [List.find?_cons_of_pos _ (by simpa using he)] at h
      simp only [Option.map_some'] at h
      injection h with h2
      unfold setL4
      rw [if_pos he, ← h2]
    · rw [List.find?_cons_of_neg _ (by simpa using he)] at h
      unfold setL4
      rw [if_neg he]
      rw [ih h]


theorem mem_foldl_insert (ps : List Key) :
    ∀ (s : Finset Key) (q : Key), q ∈ s →
      q ∈ ps.foldl (fun s p => insert p s) s := by
  induction ps with
  | nil => intro s q h; exact h
  | cons p rest ih =>
    intro s q h
    exact ih (insert p s) q (Finset.mem_insert_of_mem h)

theorem mem_foldl_insert_self (ps : List Key) :
    ∀ (s : Finset Key) (p : Key), p ∈ ps →
      p ∈ ps.foldl (fun s p => insert p s) s := by
  induction ps with
  | nil => intro s p h; cases h
  | cons q rest ih =>
    intro s p h
    rcases List.mem_cons.mp h with h1 | h1
    · exact mem_foldl_insert rest (insert q s) p
        (h1 ▸ Finset.mem_insert_self q s)
    · exact ih (insert q s) p h1

theorem lookupL4_markRequested :
    ∀ (ls : List (String × L4)) (n : String) (ps : List Key) (m : String),
    lookupL4 (markRequested ls n ps) m =
      if m = n then
        (lookupL4 ls m).map (fun l4 =>
          { l4 with fullHashRequested :=
              ps.foldl (fun s p => insert p s) l4.fullHashRequested })
      else lookupL4 ls m := by
  intro ls
  induction ls with
  | nil =>
    intro n ps m
    by_cases hm : m = n <;> simp [markRequested, lookupL4, hm]
  | cons e rest ih =>
    intro n ps m
    rcases e with ⟨na, la⟩
    unfold markRequested
    by_cases he : na = n
    · rw [if_pos he]
      by_cases hm : m = n
      · have hnm : na = m := he.trans hm.symm
        unfold lookupL4
        rw [List.find?_cons_of_pos _ (by simpa using hnm),
          List.find?_cons_of_pos _ (by simpa using hnm)]
        simp [hm]
      · have hnm : ¬ na = m := fun hcon => hm (hcon.symm.trans he)
        unfold lookupL4
        rw [List.find?_cons_of_neg _ (by simpa using hnm),
          List.find?_cons_of_neg _ (by simpa using hnm)]
        rw [if_neg hm]
    · rw [if_neg he]
      by_cases hnm : na = m
      · have hm : ¬ m = n := fun hcon => he (hnm.trans hcon)
        unfold lookupL4
        rw [List.find?_cons_of_pos _ (by simpa using hnm),
          List.find?_cons_of_pos _ (by simpa using hnm)]
        rw [if_neg hm]
      · unfold lookupL4
        rw [List.find?_cons_of_neg _ (by simpa using hnm),
          List.find?_cons_of_neg _ (by simpa using hnm)]
        exact ih n ps m


theorem marked_eq_of_lookup {ls : List (String × L4)} {n : String} {l4 : L4}
    (h : lookupL4 ls n = some l4) : marked ls n = l4.fullHashRequested := by
  unfold marked
  rw [h]
  rfl

theorem marked_markRequested_mono {ls : List (String × L4)} (n : String)
    (ps : List Key) (m : String) {q : Key} (hq : q ∈ marked ls m) :
    q ∈ marked (markRequested ls n ps) m := by
  unfold marked at hq ⊢
  rw [lookupL4_markRequested ls n ps m]
  by_cases hm : m = n
  · rw [if_pos hm]
    cases hl : lookupL4 ls m with
    | none => rw [hl] at hq; simp at hq
    | some l4 =>
      rw [hl] at hq
      simp only [Option.map_some', Option.getD_some] at hq ⊢
      exact mem_foldl_insert ps l4.fullHashRequested q hq
  · rw [if_neg hm]
    exact hq

theorem marked_markRequested_self {ls : List (String × L4)} {n : String}
    {l4 : L4} (hl : lookupL4 ls n = some l4) {ps : List Key} {p : Key}
    (hp : p ∈ ps) : p ∈ marked (markRequested ls n ps) n := by
  unfold marked
  rw [lookupL4_markRequested ls n ps n, if_pos rfl, hl]
  simp only [Option.map_some', Option.getD_some]
  exact mem_foldl_insert_self ps l4.fullHashRequested p hp

theorem applyRecord_fhr {name : String} {h : Key} {ttl : Nat} :
    ∀ {ls ls2 : List (String × L4)},
    applyRecord ls name h ttl = some ls2 → ∀ m,
    (lookupL4 ls2 m).map (fun x => x.fullHashRequested) =
      (lookupL4 ls m).map (fun x => x.fullHashRequested) := by
  intro ls
  induction ls with
  | nil => intro ls2 ha; cases ha
  | cons e rest ih =>
    intro ls2 ha m
    unfold applyRecord at ha
    by_cases he : e.1 = name
    · rw [if_pos he] at ha
      injection ha with h2
      subst h2
      unfold lookupL4
      by_cases hm : e.1 = m
      · rw [List.find?_cons_of_pos _ (by simpa using hm),
          List.find?_cons_of_pos _ (by simpa using hm)]
        rfl
      · rw [List.find?_cons_of_neg _ (by simpa using hm),
          List.find?_cons_of_neg _ (by simpa using hm)]
    · rw [if_neg he] at ha
      cases har : applyRecord rest name h ttl with
      | none => rw [har] at ha; cases ha
      | some lsr =>
        rw [har] at ha
        simp only [Option.map_some'] at ha
        injection ha with h2
        subst h2
        unfold lookupL4
        by_cases hm : e.1 = m
        · rw [List.find?_cons_of_pos _ (by simpa using hm),
            List.find?_cons_of_pos _ (by simpa using hm)]
        · rw [List.find?_cons_of_neg _ (by simpa using hm),
            List.find?_cons_of_neg _ (by simpa using hm)]
          exact ih har m

theorem applyRecords_marked {ttl : Nat} :
    ∀ (records : List (String × Key)) {ls ls2 : List (String × L4)},
    applyRecords ls records ttl = some ls2 → ∀ m,
    marked ls2 m = marked ls m := by
  intro records
  induction records with
  | nil =>
    intro ls ls2 ha m
    unfold applyRecords at ha
    injection ha with h2
    rw [h2]
  | cons r rest ih =>
    intro ls ls2 ha m
    unfold applyRecords at ha
    cases har : applyRecord ls r.1 r.2 ttl with
    | none => rw [har] at ha; cases ha
    | some ls1 =>
      rw [har] at ha
      rw [ih ha m]
      unfold marked
      rw [applyRecord_fhr har m]

theorem setCache_valid (h : Key) (ttl : Nat) (ht : 0 < ttl) :
    ∀ (c : List (Key × Nat × Nat)), (∀ ce ∈ c, ce.2.1 < ce.2.2) →
    ∀ ce ∈ setCache c h ttl, ce.2.1 < ce.2.2 := by
  intro c
  induction c with
  | nil =>
    intro _ ce hce
    unfold setCache at hce
    rw [List.mem_singleton.mp hce]
    exact ht
  | cons e rest ih =>
    intro hv ce hce
    unfold setCache at hce
    by_cases he : e.1 = h
    · rw [if_pos he] at hce
      rcases List.mem_cons.mp hce with h2 | h2
      · rw [h2]; exact ht
      · exact hv ce (List.mem_cons_of_mem e h2)
    · rw [if_neg he] at hce
      rcases List.mem_cons.mp hce with h2 | h2
      · rw [h2]; exact hv e (List.mem_cons_self e rest)
      · exact ih (fun x hx => hv x (List.mem_cons_of_mem e hx)) ce h2

theorem validCachesL_markRequested (n : String) (ps : List Key) :
    ∀ (ls : List (String × L4)), validCachesL ls →
    validCachesL (markRequested ls n ps) := by
  intro ls
  induction ls with
  | nil => intro hv; exact hv
  | cons e rest ih =>
    intro hv
    unfold markRequested
    by_cases he : e.1 = n
    · rw [if_pos he]
      intro x hx ce hce
      rcases List.mem_cons.mp hx with h2 | h2
      · subst h2
        exact hv e (List.mem_cons_self e rest) ce hce
      · exact hv x (List.mem_cons_of_mem e h2) ce hce
    · rw [if_neg he]
      intro x hx ce hce
      rcases List.mem_cons.mp hx with h2 | h2
      · exact hv e (List.mem_cons_self e rest) ce (h2 ▸ hce)
      · exact ih (fun y hy => hv y (List.mem_cons_of_mem e hy)) x h2 ce hce

theorem validCachesL_applyRecord (name : String) (h : Key) {ttl : Nat}
    (ht : 0 < ttl) :
    ∀ (ls : List (String × L4)) {ls2 : List (String × L4)},
    validCachesL ls → applyRecord ls name h ttl = some ls2 →
    validCachesL ls2 := by
  intro ls
  induction ls with
  | nil => intro ls2 _ ha; cases ha
  | cons e rest ih =>
    intro ls2 hv ha
    unfold applyRecord at ha
    by_cases he : e.1 = name
    · rw [if_pos he] at ha
      injection ha with h2
      subst h2
      intro x hx ce hce
      rcases List.mem_cons.mp hx with h2 | h2
      · subst h2
        exact setCache_valid h ttl ht e.2.cache
          (fun y hy => hv e (List.mem_cons_self e rest) y hy) ce hce
      · exact hv x (List.mem_cons_of_mem e h2) ce hce
    · rw [if_neg he] at ha
      cases har : applyRecord rest name h ttl with
      | none => rw [har] at ha; cases ha
      | some lsr =>
        rw [har] at ha
        simp only [Option.map_some'] at ha
        injection ha with h2
        subst h2
        intro x hx ce hce
        rcases List.mem_cons.mp hx with h2 | h2
        · exact hv e (List.mem_cons_self e rest) ce (h2 ▸ hce)
        · exact ih (fun y hy => hv y (List.mem_cons_of_mem e hy)) har x h2 ce hce

theorem validCachesL_applyRecords {ttl : Nat} (ht : 0 < ttl) :
    ∀ (records : List (String × Key)) (ls : List (String × L4))
      {ls2 : List (String × L4)},
    validCachesL ls → applyRecords ls records ttl = some ls2 →
    validCachesL ls2 := by
  intro records
  induction records with
  | nil =>
    intro ls ls2 hv ha
    unfold applyRecords at ha
    injection ha with h2
    exact h2 ▸ hv
  | cons r rest ih =>
    intro ls ls2 hv ha
    unfold applyRecords at ha
    cases har : applyRecord ls r.1 r.2 ttl with
    | none => rw [har] at ha; cases ha
    | some ls1 =>
      rw [har] at ha
      exact ih ls1 (validCachesL_applyRecord r.1 r.2 ht ls hv har) ha

theorem countP_append (a b : List (String × List Key)) (l : String) (p : Key) :
    countP (a ++ b) l p = countP a l p + countP b l p := by
  unfold countP
  rw [List.filter_append, List.length_append]

theorem countP_single (n : String) (ks : List Key) (l : String) (p : Key) :
    countP [(n, ks)] l p = if n = l ∧ p ∈ ks then 1 else 0 := by
  unfold countP
  by_cases h : n = l ∧ p ∈ ks
  · rw [if_pos h]
    rw [List.filter_cons_of_pos (by simpa using h)]
    rfl
  · rw [if_neg h]
    rw [List.filter_cons_of_neg (by simpa using h)]
    rfl


theorem requestFullHashes_tresp_eq (ls : List (String × L4)) (n : String)
    (ks : List Key) (status ttl : Nat) (records : List (String × Key)) :
    requestFullHashes ls n ks (FHTransport.tresp status ttl records) =
      if ks.isEmpty then ⟨ls, [], none⟩
      else if mixedLenCheck 0 ks then ⟨ls, [], some QErr.mixedLen⟩
      else if status = 200 then
        applyOutcome (markRequested ls n ks) (n, ks)
          (applyRecords (markRequested ls n ks) records ttl)
      else if status = 503 then
        ⟨markRequested ls n ks, [(n, ks)], some QErr.tempUnavailable⟩
      else ⟨markRequested ls n ks, [(n, ks)], some (QErr.upstream status)⟩ := by
  unfold requestFullHashes
  by_cases h1 : ks.isEmpty
  · rw [if_pos h1]
  · rw [if_neg h1]

theorem requestFullHashes_marks {ls : List (String × L4)} {n : String}
    {l4 : L4} (hl : lookupL4 ls n = some l4) (ks : List Key)
    (status ttl : Nat) (records : List (String × Key)) :
    ((requestFullHashes ls n ks (FHTransport.tresp status ttl records)).issued
        = [] ∧
      (requestFullHashes ls n ks
        (FHTransport.tresp status ttl records)).lists = ls) ∨
    ((requestFullHashes ls n ks (FHTransport.tresp status ttl records)).issued
        = [(n, ks)] ∧
      ∀ p ∈ ks, p ∈ marked (requestFullHashes ls n ks
        (FHTransport.tresp status ttl records)).lists n) := by
  rw [requestFullHashes_tresp_eq]
  by_cases h1 : ks.isEmpty
  · rw [if_pos h1]
    exact Or.inl ⟨rfl, rfl⟩
  · rw [if_neg h1]
    by_cases h2 : mixedLenCheck 0 ks
    · rw [if_pos h2]
      exact Or.inl ⟨rfl, rfl⟩
    · rw [if_neg h2]
      by_cases h3 : status = 200
      · rw [if_pos h3]
        cases har : applyRecords (markRequested ls n ks) records ttl with
        | none =>
          refine Or.inr ⟨rfl, ?_⟩
          intro p hp
          exact marked_markRequested_self hl hp
        | some ls2 =>
          refine Or.inr ⟨rfl, ?_⟩
          intro p hp
          dsimp only [applyOutcome]
          rw [applyRecords_marked records har n]
          exact marked_markRequested_self hl hp
      · rw [if_neg h3]
        by_cases h4 : status = 503
        · rw [if_pos h4]
          exact Or.inr ⟨rfl, fun p hp => marked_markRequested_self hl hp⟩
        · rw [if_neg h4]
          exact Or.inr ⟨rfl, fun p hp => marked_markRequested_self hl hp⟩

theorem requestFullHashes_valid_mono {ls : List (String × L4)} (n : String)
    (ks : List Key) (status : Nat) {ttl : Nat}
    (records : List (String × Key)) (hv : validCachesL ls) (ht : 0 < ttl) :
    validCachesL
      (requestFullHashes ls n ks (FHTransport.tresp status ttl records)).lists ∧
    ∀ m q, q ∈ marked ls m →
      q ∈ marked (requestFullHashes ls n ks
        (FHTransport.tresp status ttl records)).lists m := by
  rw [requestFullHashes_tresp_eq]
  by_cases h1 : ks.isEmpty
  · rw [if_pos h1]
    exact ⟨hv, fun m q hq => hq⟩
  · rw [if_neg h1]
    by_cases h2 : mixedLenCheck 0 ks
    · rw [if_pos h2]
      exact ⟨hv, fun m q hq => hq⟩
    · rw [if_neg h2]
      by_cases h3 : status = 200
      · rw [if_pos h3]
        cases har : applyRecords (markRequested ls n ks) records ttl with
        | none =>
          exact ⟨validCachesL_markRequested n ks ls hv,
            fun m q hq => marked_markRequested_mono n ks m hq⟩
        | some ls2 =>
          dsimp only [applyOutcome]
          refine ⟨validCachesL_applyRecords ht records (markRequested ls n ks)
            (validCachesL_markRequested n ks ls hv) har, ?_⟩
          intro m q hq
          rw [applyRecords_marked records har m]
          exact marked_markRequested_mono n ks m hq
      · rw [if_neg h3]
        by_cases h4 : status = 503
        · rw [if_pos h4]
          exact ⟨validCachesL_markRequested n ks ls hv,
            fun m q hq => marked_markRequested_mono n ks m hq⟩
        · rw [if_neg h4]
          exact ⟨validCachesL_markRequested n ks ls hv,
            fun m q hq => marked_markRequested_mono n ks m hq⟩


theorem queryLoop_inv (mf off : Bool) (cands : List Key)
    (tr : String → List Key → FHTransport) (hg : goodTransport tr) :
    ∀ (names : List String) (ls : List (String × L4))
      (issued : List (String × List Key)),
    validCachesL ls →
    (∀ l p, countP issued l p ≤ 1) →
    (∀ l p, 0 < countP issued l p → p ∈ marked ls l) →
    validCachesL (queryLoop mf off cands tr ls names issued).1 ∧
    (∀ l p, countP (queryLoop mf off cands tr ls names issued).2.1 l p ≤ 1) ∧
    (∀ l p, 0 < countP (queryLoop mf off cands tr ls names issued).2.1 l p →
      p ∈ marked (queryLoop mf off cands tr ls names issued).1 l) ∧
    (∀ l q, q ∈ marked ls l →
      q ∈ marked (queryLoop mf off cands tr ls names issued).1 l) ∧
    (∀ l p, p ∈ marked ls l →
      countP (queryLoop mf off cands tr ls names issued).2.1 l p =
        countP issued l p) := by
  intro names
  induction names with
  | nil =>
    intro ls issued hvc hc1 hc2
    exact ⟨hvc, hc1, hc2, fun l q hq => hq, fun l p _ => rfl⟩
  | cons name names ih =>
    intro ls issued hvc hc1 hc2
    unfold queryLoop
    cases hl : lookupL4 ls name with
    | none => exact ih ls issued hvc hc1 hc2
    | some l4 =>
      dsimp only []
      have hsv := @scanCandidates_valid mf off l4 (lookupL4_valid hvc hl) cands []
      rcases hscan : scanCandidates mf off l4 [] cands with ⟨l4a, keys, opt⟩
      rw [hscan] at hsv
      have hl4a : l4a = l4 := hsv.1
      subst hl4a
      have hkeys : ∀ p ∈ keys, p ∉ l4a.fullHashRequested := by
        intro p hp
        rcases hsv.2 p hp with hc | hc
        · simp at hc
        · exact hc
      cases opt with
      | some b =>
        dsimp only []
        rw [setL4_self hl]
        exact ⟨hvc, hc1, hc2, fun l q hq => hq, fun l p _ => rfl⟩
      | none =>
        dsimp only []
        rw [setL4_self hl]
        by_cases hke : keys.isEmpty
        · rw [if_pos hke]
          exact ih ls issued hvc hc1 hc2
        · rw [if_neg hke]
          have hgt := hg name keys
          cases htr : tr name keys with
          | terr =>
            rw [htr] at hgt
            exact False.elim hgt
          | tresp status ttl records =>
            rw [htr] at hgt
            have httl : 0 < ttl := hgt
            obtain ⟨hr1, hr2⟩ :=
              requestFullHashes_valid_mono name keys status records hvc httl
            have hr3 := requestFullHashes_marks hl keys status ttl records
            have hsame : ∀ l p, p ∈ marked ls l →
                countP (issued ++ (requestFullHashes ls name keys
                  (FHTransport.tresp status ttl records)).issued) l p =
                countP issued l p := by
              intro l p hp
              rcases hr3 with ⟨hi0, h0⟩ | ⟨hi1, hm1⟩
              · rw [hi0, List.append_nil]
              · rw [hi1, countP_append, countP_single]
                have hcnot : ¬ (name = l ∧ p ∈ keys) := by
                  rintro ⟨hnl, hpk⟩
                  apply hkeys p hpk
                  have hp2 := hp
                  rw [← hnl, marked_eq_of_lookup hl] at hp2
                  exact hp2
                rw [if_neg hcnot, Nat.add_zero]
            have hciss : ∀ l p, countP (issued ++ (requestFullHashes ls name
                keys (FHTransport.tresp status ttl records)).issued) l p
                  ≤ 1 := by
              intro l p
              rcases hr3 with ⟨hi0, h0⟩ | ⟨hi1, hm1⟩
              · rw [hi0, List.append_nil]
                exact hc1 l p
              · rw [hi1, countP_append, countP_single]
                by_cases hc : name = l ∧ p ∈ keys
                · rw [if_pos hc]
                  have h0 : countP issued l p = 0 := by
                    by_contra hne
                    have hp2 := hc2 l p (Nat.pos_of_ne_zero hne)
                    rw [← hc.1, marked_eq_of_lookup hl] at hp2
                    exact hkeys p hc.2 hp2
                  rw [h0]
                · rw [if_neg hc, Nat.add_zero]
                  exact hc1 l p
            have hcmark : ∀ l p, 0 < countP (issued ++ (requestFullHashes ls
                name keys (FHTransport.tresp status ttl records)).issued) l p →
                p ∈ marked (requestFullHashes ls name keys
                  (FHTransport.tresp status ttl records)).lists l := by
              intro l p hp
              rcases hr3 with ⟨hi0, h0⟩ | ⟨hi1, hm1⟩
              · rw [hi0, List.append_nil] at hp
                exact hr2 l p (hc2 l p hp)
              · rw [hi1, countP_append, countP_single] at hp
                by_cases hc : name = l ∧ p ∈ keys
                · rw [← hc.1]
                  exact hm1 p hc.2
                · rw [if_neg hc, Nat.add_zero] at hp
                  exact hr2 l p (hc2 l p hp)
            cases hre : (requestFullHashes ls name keys
                (FHTransport.tresp status ttl records)).err with
            | some e =>
              dsimp only []
              exact ⟨hr1, hciss, hcmark, fun l q hq => hr2 l q hq, hsame⟩
            | none =>
              dsimp only []
              cases hlr : lookupL4 (requestFullHashes ls name keys
                  (FHTransport.tresp status ttl records)).lists name with
              | none =>
                have hrec := ih _ _ hr1 hciss hcmark
                exact ⟨hrec.1, hrec.2.1, hrec.2.2.1,
                  fun l q hq => hrec.2.2.2.1 l q (hr2 l q hq),
                  fun l p hp =>
                    (hrec.2.2.2.2 l p (hr2 l p hp)).trans (hsame l p hp)⟩
              | some l4r =>
                dsimp only []
                by_cases hany :
                    cands.any (fun u => decide (u ∈ l4r.fullHashes)) = true
                · rw [if_pos hany]
                  exact ⟨hr1, hciss, hcmark, fun l q hq => hr2 l q hq, hsame⟩
                · rw [if_neg hany]
                  have hrec := ih _ _ hr1 hciss hcmark
                  exact ⟨hrec.1, hrec.2.1, hrec.2.2.1,
                    fun l q hq => hrec.2.2.2.1 l q (hr2 l q hq),
                    fun l p hp =>
                      (hrec.2.2.2.2 l p (hr2 l p hp)).trans (hsame l p hp)⟩


theorem queryUrl_inv {sb : SB4} (cands : List Key) (mf : Bool)
    {tr : String → List Key → FHTransport} (hg : goodTransport tr)
    (hv : validCachesL sb.lists) :
    validCachesL (queryUrl sb cands mf tr).sb.lists ∧
    (∀ l p, countP (queryUrl sb cands mf tr).issued l p ≤ 1) ∧
    (∀ l p, 0 < countP (queryUrl sb cands mf tr).issued l p →
      p ∈ marked (queryUrl sb cands mf tr).sb.lists l) ∧
    (∀ l q, q ∈ marked sb.lists l →
      q ∈ marked (queryUrl sb cands mf tr).sb.lists l) ∧
    (∀ l p, p ∈ marked sb.lists l →
      countP (queryUrl sb cands mf tr).issued l p = 0) := by
  unfold queryUrl
  by_cases hs : (mf && !(IsUpToDate sb)) = true
  · rw [if_pos hs]
    exact ⟨hv, fun l p => Nat.zero_le 1,
      fun l p hp => absurd hp (Nat.lt_irrefl 0),
      fun l q hq => hq, fun l p _ => rfl⟩
  · rw [if_neg hs]
    have h := queryLoop_inv mf sb.offline cands tr hg (sb.lists.map (·.1))
      sb.lists [] hv (fun l p => Nat.zero_le 1)
      (fun l p hp => absurd hp (Nat.lt_irrefl 0))
    rcases hq : queryLoop mf sb.offline cands tr sb.lists
        (sb.lists.map (·.1)) [] with ⟨ls, issued, out⟩
    rw [hq] at h
    rw [hq]
    dsimp only [] at h ⊢
    exact ⟨h.1, h.2.1, h.2.2.1, h.2.2.2.1, fun l p hp => h.2.2.2.2 l p hp⟩

theorem session_inv :
    ∀ (steps : List SessionStep) (sb : SB4),
    (∀ s ∈ steps, goodTransport s.transport) → validCachesL sb.lists →
    validCachesL (session sb steps).1.lists ∧
    (∀ l p, countP (session sb steps).2 l p ≤ 1) ∧
    (∀ l p, 0 < countP (session sb steps).2 l p →
      p ∈ marked (session sb steps).1.lists l) ∧
    (∀ l q, q ∈ marked sb.lists l →
      q ∈ marked (session sb steps).1.lists l) ∧
    (∀ l p, p ∈ marked sb.lists l → countP (session sb steps).2 l p = 0) := by
  intro steps
  induction steps with
  | nil =>
    intro sb _ hv
    exact ⟨hv, fun l p => Nat.zero_le 1,
      fun l p hp => absurd hp (Nat.lt_irrefl 0),
      fun l q hq => hq, fun l p _ => rfl⟩
  | cons s rest ih =>
    intro sb hg hv
    have hgs : goodTransport s.transport := hg s (List.mem_cons_self s rest)
    obtain ⟨q1, q2, q3, q4, q5⟩ := queryUrl_inv s.cands s.matchFullHash hgs hv
    obtain ⟨i1, i2, i3, i4, i5⟩ :=
      ih (queryUrl sb s.cands s.matchFullHash s.transport).sb
        (fun x hx => hg x (List.mem_cons_of_mem s hx)) q1
    unfold session
    dsimp only []
    rcases hsr : session (queryUrl sb s.cands s.matchFullHash s.transport).sb
        rest with ⟨sbf, reqs⟩
    rw [hsr] at i1 i2 i3 i4 i5
    dsimp only [] at i1 i2 i3 i4 i5 ⊢
    refine ⟨i1, ?_, ?_, fun l q hq => i4 l q (q4 l q hq), ?_⟩
    · intro l p
      rw [countP_append]
      by_cases hc :
          0 < countP (queryUrl sb s.cands s.matchFullHash s.transport).issued
            l p
      · rw [i5 l p (q3 l p hc), Nat.add_zero]
        exact q2 l p
      · rw [Nat.eq_zero_of_not_pos hc, Nat.zero_add]
        exact i2 l p
    · intro l p hp
      rw [countP_append] at hp
      by_cases hc : 0 < countP reqs l p
      · exact i3 l p hc
      · rw [Nat.eq_zero_of_not_pos hc, Nat.add_zero] at hp
        exact i4 l p (q3 l p hp)
    · intro l p hp
      rw [countP_append, q5 l p hp, i5 l p (q4 l p hp)]

/-- C5, amended: `requestFullHashes` marks the requested prefixes in
`FullHashRequested` only AFTER `sb.request` returns (part_004 lines
202–211), not before awaiting the response; on a transport error nothing
is marked and the same prefix is requested again by a later call (the
counterexample).  What does hold: whenever the request produces an HTTP
response (any status) the prefixes of the issued request are all marked
afterwards, and under a transport that always answers with a positive
cache TTL, and starting from a state whose caches are all valid (no
cache invalidation, the caveat of spec P7), a session of `queryUrl`
calls issues at most one gethash request per (list name, prefix). -/
theorem c5_amended :
    (∀ (ls : List (String × L4)) (n : String) (l4 : L4) (ks : List Key)
      (status ttl : Nat) (records : List (String × Key)),
      lookupL4 ls n = some l4 →
      (requestFullHashes ls n ks (FHTransport.tresp status ttl records)).issued
          = [] ∨
      ∀ p ∈ ks, p ∈ marked (requestFullHashes ls n ks
        (FHTransport.tresp status ttl records)).lists n) ∧
    (∀ (sb : SB4) (steps : List SessionStep),
      (∀ s ∈ steps, goodTransport s.transport) → validCachesL sb.lists →
      ∀ l p, countP (session sb steps).2 l p ≤ 1) := by
  constructor
  · intro ls n l4 ks status ttl records hl
    rcases requestFullHashes_marks hl ks status ttl records with
      ⟨hi, _⟩ | ⟨_, hm⟩
    · exact Or.inl hi
    · exact Or.inr hm
  · intro sb steps hg hv
    exact (session_inv steps sb hg hv).2.1

/-- Witness for `c5_amended` at the concrete state `sb4Ex`: the prefix
`[1,2,3,4]` is marked after a 200 response, and the two-call session
against the always-200 transport issues at most one request for it. -/
theorem c5_amended_witness :
    ((requestFullHashes [("l", l4Ex)] "l" [[1, 2, 3, 4]]
        (FHTransport.tresp 200 1 [])).issued = [] ∨
      [1, 2, 3, 4] ∈ marked (requestFullHashes [("l", l4Ex)] "l"
        [[1, 2, 3, 4]] (FHTransport.tresp 200 1 [])).lists "l") ∧
    countP (session sb4Ex [stepOkEx, stepOkEx]).2 "l" [1, 2, 3, 4] ≤ 1 :=
  ⟨(c5_amended.1 [("l", l4Ex)] "l" l4Ex [[1, 2, 3, 4]] 200 1 []
      (by decide)).imp (fun h => h) (fun h => h [1, 2, 3, 4] (by decide)),
    c5_amended.2 sb4Ex [stepOkEx, stepOkEx]
      (by
        intro s hs
        have hst : s.transport = trOk := by
          rcases List.mem_cons.mp hs with h | h
          · rw [h]; rfl
          · rcases List.mem_cons.mp h with h2 | h2
            · rw [h2]; rfl
            · exact absurd h2 (List.not_mem_nil s)
        rw [hst]
        intro n ps
        exact Nat.one_pos)
      (by decide) "l" [1, 2, 3, 4]⟩

end SafeBrowsing
